import Mathlib

/-!
Verification of the carbn.py compiler (toolchain/compiler): a shallow
embedding of the AST data model (ast_nodes.py), the optimizer passes
(optimizer.py) and the bytecode generator (codegen.py), together with
theorems settling the frozen claims about the specification.

Modelling conventions:
* Python exceptions are modelled with `Except String` (codegen) or
  `Option` results (folding helpers); the generator catches every
  exception and re-raises `CompilerError` with a message prefixed by
  "Codegen error: ", which the embedding reproduces.
* Python machine-unbounded integers are `Int`; Python floats are
  modelled as exact rationals (`Rat`).  No claim depends on IEEE-754
  rounding; the byte encoding of a float immediate is modelled as an
  opaque-valued 8-byte field (only its length matters to any theorem).
* Python `bool` is a subclass of `int`; every `isinstance(v, int)` test
  in the source therefore also accepts booleans, which the embedding
  mirrors explicitly (see `visitConstant` and the arithmetic helpers).
* In codegen.py the name `FString` (line 175) is defined nowhere in the
  repository, so evaluating the `elif isinstance(node, FString)` test
  raises `NameError` for every node that falls past the `Constant`
  case.  Consequently the cases below line 175 of `visit_node`
  (BinaryOp, Compare, BoolOp, UnaryOp, If, For, While, ListNode,
  Return) are unreachable dead code: visiting any such node fails with
  an exception that `generate` converts to a compilation error.  The
  embedding models this faithfully (see `visitNode`).
-/

namespace Carbn

/-- Python runtime values that can appear in a `Constant` AST node:
int, float, bool, str and None.  Floats are modelled as exact
rationals. -/
inductive PyVal where
  | int (i : Int)
  | float (q : Rat)
  | bool (b : Bool)
  | str (s : String)
  | null
deriving DecidableEq, Repr

namespace PyVal

/-- Python truthiness (`bool(v)`) for the modelled value kinds. -/
def truthy : PyVal → Bool
  | .int i => i != 0
  | .float q => q != 0
  | .bool b => b
  | .str s => s != ""
  | .null => false

/-- Python `v != 0` (comparison against the int 0): numbers compare
numerically, values of non-numeric type are unequal to 0. -/
def neZero : PyVal → Bool
  | .int i => i != 0
  | .float q => q != 0
  | .bool b => b
  | .str _ => true
  | .null => true

/-- The integer seen by Python when a value is used as an int:
`isinstance(v, int)` also accepts bool (a subclass of int). -/
def intOf : PyVal → Option Int
  | .int i => some i
  | .bool b => some (if b then 1 else 0)
  | _ => Option.none

/-- The numeric (rational) value of an int, bool or float. -/
def ratOf : PyVal → Option Rat
  | .int i => some (i : Rat)
  | .bool b => some (if b then 1 else 0)
  | .float q => some q
  | _ => Option.none

/-- Python string repetition `s * n` (negative counts give ""). -/
def strRepeat (s : String) (n : Int) : String :=
  String.join (List.replicate n.toNat s)

/-- Python `+`: int/bool addition stays int, any float makes a float,
str + str concatenates; every other combination raises `TypeError`
(modelled as `Option.none`). -/
def pyAdd : PyVal → PyVal → Option PyVal
  | .str a, .str b => some (.str (a ++ b))
  | a, b =>
    match intOf a, intOf b with
    | some x, some y => some (.int (x + y))
    | _, _ =>
      match ratOf a, ratOf b with
      | some x, some y => some (.float (x + y))
      | _, _ => Option.none

/-- Python `-` on numbers; other combinations raise `TypeError`. -/
def pySub : PyVal → PyVal → Option PyVal
  | a, b =>
    match intOf a, intOf b with
    | some x, some y => some (.int (x - y))
    | _, _ =>
      match ratOf a, ratOf b with
      | some x, some y => some (.float (x - y))
      | _, _ => Option.none

/-- Python `*`: numeric product, or string repetition when one side is
a str and the other an int/bool. -/
def pyMul : PyVal → PyVal → Option PyVal
  | .str a, b => (intOf b).map (fun n => .str (strRepeat a n))
  | a, .str b => (intOf a).map (fun n => .str (strRepeat b n))
  | a, b =>
    match intOf a, intOf b with
    | some x, some y => some (.int (x * y))
    | _, _ =>
      match ratOf a, ratOf b with
      | some x, some y => some (.float (x * y))
      | _, _ => Option.none

/-- Python `/` (true division): always a float on numbers, raising
`ZeroDivisionError` on a zero divisor and `TypeError` otherwise. -/
def pyDiv : PyVal → PyVal → Option PyVal
  | a, b =>
    match ratOf a, ratOf b with
    | some x, some y => if y = 0 then Option.none else some (.float (x / y))
    | _, _ => Option.none

/-- Python `%`: floor-convention remainder on numbers (`Int.fmod` has
the sign of the divisor, matching Python).  Printf-style string
formatting (`str % v`) is not modelled and is treated as a failing
fold. -/
def pyMod : PyVal → PyVal → Option PyVal
  | .str _, _ => Option.none
  | a, b =>
    match intOf a, intOf b with
    | some x, some y => if y = 0 then Option.none else some (.int (Int.fmod x y))
    | _, _ =>
      match ratOf a, ratOf b with
      | some x, some y =>
        if y = 0 then Option.none else some (.float (x - y * (⌊x / y⌋ : Int)))
      | _, _ => Option.none

/-- Python `not v`: total on all modelled values. -/
def pyNot (v : PyVal) : Option PyVal :=
  some (.bool (!truthy v))

/-- Python unary `-v` on numbers (`-True` is the int -1). -/
def pyNeg : PyVal → Option PyVal
  | .float q => some (.float (-q))
  | v => (intOf v).map (fun x => .int (-x))

/-- Python `==`: total; mixed numeric kinds compare numerically,
values of unrelated types are unequal. -/
def pyEqB (a b : PyVal) : Bool :=
  match a, b with
  | .str x, .str y => x == y
  | .null, .null => true
  | .str _, _ | _, .str _ | .null, _ | _, .null => false
  | x, y =>
    match ratOf x, ratOf y with
    | some u, some v => u == v
    | _, _ => false

/-- Python `<`: numeric or string comparison, `TypeError` otherwise. -/
def pyLt (a b : PyVal) : Option Bool :=
  match a, b with
  | .str x, .str y => some (decide (x < y))
  | x, y =>
    match ratOf x, ratOf y with
    | some u, some v => some (decide (u < v))
    | _, _ => Option.none

/-- Python `<=`, via the same dispatch as `pyLt`. -/
def pyLe (a b : PyVal) : Option Bool :=
  match a, b with
  | .str x, .str y => some (decide (x ≤ y))
  | x, y =>
    match ratOf x, ratOf y with
    | some u, some v => some (decide (u ≤ v))
    | _, _ => Option.none

/-- Python `len(v)` when the value supports it (only str among the
modelled kinds has a length). -/
def pyLenFold : PyVal → Option PyVal
  | .str s => some (.int s.length)
  | _ => Option.none

/-- Python `abs(v)` on numbers. -/
def pyAbs : PyVal → Option PyVal
  | .float q => some (.float |q|)
  | v => (intOf v).map (fun x => .int |x|)

/-- Auxiliary loop of Python `min`: keep the current value, replacing
it when a later item compares strictly below it. -/
def pyMinAux : PyVal → List PyVal → Option PyVal
  | acc, [] => some acc
  | acc, v :: rest =>
    match pyLt v acc with
    | some true => pyMinAux v rest
    | some false => pyMinAux acc rest
    | Option.none => Option.none

/-- Python `min` over the argument values (empty input raises). -/
def pyMin : List PyVal → Option PyVal
  | [] => Option.none
  | v :: rest => pyMinAux v rest

/-- Auxiliary loop of Python `max`. -/
def pyMaxAux : PyVal → List PyVal → Option PyVal
  | acc, [] => some acc
  | acc, v :: rest =>
    match pyLt acc v with
    | some true => pyMaxAux v rest
    | some false => pyMaxAux acc rest
    | Option.none => Option.none

/-- Python `max` over the argument values (empty input raises). -/
def pyMax : List PyVal → Option PyVal
  | [] => Option.none
  | v :: rest => pyMaxAux v rest

/-- Python `str(v)` as used by `Optimizer._hash_expr` on a constant.
Int, bool, str and None renderings are exact; the decimal rendering of
a float is approximated by the rational rendering (no claim depends on
it). -/
def pyValStr : PyVal → String
  | .int i => toString i
  | .bool b => if b then "True" else "False"
  | .str s => s
  | .null => "None"
  | .float q => toString q

end PyVal

/-- The internal AST of ast_nodes.py.  Field names and variant
contents follow the dataclasses one for one.  There is no FString
variant: no class of that name exists anywhere in the repository, so
no such node can ever be constructed. -/
inductive AST where
  | module (body : List AST)
  | assignment (target : String) (value : AST)
  | binaryOp (left : AST) (op : String) (right : AST)
  | unaryOp (op : String) (operand : AST)
  | compare (left : AST) (ops : List String) (comparators : List AST)
  | boolOp (op : String) (values : List AST)
  | call (func : String) (args : List AST)
  | name (id : String)
  | constant (value : PyVal)
  | ifStmt (test : AST) (body : List AST) (orelse : List AST)
  | forStmt (target : AST) (iter : AST) (body : List AST)
  | whileStmt (test : AST) (body : List AST)
  | listNode (elts : List AST)
  | expr (value : AST)
  | functionDef (fname : String) (args : List String) (body : List AST)
  | ret (value : Option AST)
deriving Repr

/-- Whether a node is a `Constant` (`isinstance(node, Constant)`). -/
def isConst : AST → Bool
  | .constant _ => true
  | _ => false

/-- Whether a node is a `Name` (`isinstance(node, Name)`). -/
def isName : AST → Bool
  | .name _ => true
  | _ => false

/-- Whether a node is a `Call` (`isinstance(node, Call)`). -/
def isCall : AST → Bool
  | .call _ _ => true
  | _ => false

/-- The constant payloads of a list of nodes (used under a guard that
every node is a `Constant`). -/
def constVals (l : List AST) : List PyVal :=
  l.filterMap (fun n => match n with
    | .constant v => some v
    | _ => Option.none)

/-- Python repr of a string: quotes around the text (escape sequences
inside the text are not modelled; no claim depends on them). -/
def strRepr (s : String) : String := "\x27" ++ s ++ "\x27"

/-- Python repr of a constant payload (only strings differ from
`pyValStr`). -/
def pyValRepr : PyVal → String
  | .str s => strRepr s
  | v => PyVal.pyValStr v

/-- Python repr of a list of strings. -/
def strListRepr (l : List String) : String :=
  "[" ++ String.intercalate ", " (l.map strRepr) ++ "]"

mutual

/-- The dataclass repr of an AST node, as produced by Python
`str(node)` for the default branch of `Optimizer._hash_expr`. -/
def reprAST : AST → String
  | .module body => "Module(body=" ++ reprASTList body ++ ")"
  | .assignment t v =>
    "Assignment(target=" ++ strRepr t ++ ", value=" ++ reprAST v ++ ")"
  | .binaryOp l op r =>
    "BinaryOp(left=" ++ reprAST l ++ ", op=" ++ strRepr op ++ ", right=" ++
      reprAST r ++ ")"
  | .unaryOp op o => "UnaryOp(op=" ++ strRepr op ++ ", operand=" ++ reprAST o ++ ")"
  | .compare l ops cs =>
    "Compare(left=" ++ reprAST l ++ ", ops=" ++ strListRepr ops ++
      ", comparators=" ++ reprASTList cs ++ ")"
  | .boolOp op vs => "BoolOp(op=" ++ strRepr op ++ ", values=" ++ reprASTList vs ++ ")"
  | .call f args => "Call(func=" ++ strRepr f ++ ", args=" ++ reprASTList args ++ ")"
  | .name i => "Name(id=" ++ strRepr i ++ ")"
  | .constant v => "Constant(value=" ++ pyValRepr v ++ ")"
  | .ifStmt t b o =>
    "If(test=" ++ reprAST t ++ ", body=" ++ reprASTList b ++ ", orelse=" ++
      reprASTList o ++ ")"
  | .forStmt t i b =>
    "For(target=" ++ reprAST t ++ ", iter=" ++ reprAST i ++ ", body=" ++
      reprASTList b ++ ")"
  | .whileStmt t b =>
    "While(test=" ++ reprAST t ++ ", body=" ++ reprASTList b ++ ")"
  | .listNode elts => "ListNode(elts=" ++ reprASTList elts ++ ")"
  | .expr v => "Expr(value=" ++ reprAST v ++ ")"
  | .functionDef n a b =>
    "FunctionDef(name=" ++ strRepr n ++ ", args=" ++ strListRepr a ++ ", body=" ++
      reprASTList b ++ ")"
  | .ret (some v) => "Return(value=" ++ reprAST v ++ ")"
  | .ret Option.none => "Return(value=None)"

/-- Python repr of a list of AST nodes. -/
def reprASTList : List AST → String
  | [] => "[]"
  | a :: as => "[" ++ reprAST a ++ reprASTTail as ++ "]"

/-- Comma-separated continuation of a list repr. -/
def reprASTTail : List AST → String
  | [] => ""
  | a :: as => ", " ++ reprAST a ++ reprASTTail as

end

mutual

/-- `Optimizer._hash_expr`: the canonical string fingerprint of an
expression used by common-subexpression elimination. -/
def hashExpr : AST → String
  | .binaryOp l op r => "(" ++ hashExpr l ++ op ++ hashExpr r ++ ")"
  | .call f args => f ++ "(" ++ hashArgs args ++ ")"
  | .name i => i
  | .constant v => PyVal.pyValStr v
  | n => reprAST n

/-- Comma-joined fingerprints of call arguments. -/
def hashArgs : List AST → String
  | [] => ""
  | [a] => hashExpr a
  | a :: as => hashExpr a ++ "," ++ hashArgs as

end

/-- Attempted fold of a recognized pure builtin call
(`len`, `abs`, `min`, `max`) whose arguments folded to constants;
`Option.none` models both a raised host exception and the absence of a
matching branch, either of which leaves the `Call` node in place. -/
def tryFoldBuiltin (f : String) (vals : List PyVal) : Option PyVal :=
  if f = "len" then
    match vals with
    | [v] => PyVal.pyLenFold v
    | _ => Option.none
  else if f = "abs" then
    match vals with
    | [v] => PyVal.pyAbs v
    | _ => Option.none
  else if f = "min" then PyVal.pyMin vals
  else if f = "max" then PyVal.pyMax vals
  else Option.none

mutual

/-- `Optimizer.constant_fold`: the bottom-up constant-folding pass.
Each arm mirrors the corresponding branch of the source; a failed
arithmetic attempt (`Option.none`) reproduces the caught host
exception, leaving the rebuilt node unfolded. -/
def constantFold : AST → AST
  | .binaryOp left op right =>
    let l := constantFold left
    let r := constantFold right
    match l, r with
    | .constant a, .constant b =>
      if op = "ADD" then
        match PyVal.pyAdd a b with
        | some v => .constant v
        | Option.none => .binaryOp (.constant a) op (.constant b)
      else if op = "SUB" then
        match PyVal.pySub a b with
        | some v => .constant v
        | Option.none => .binaryOp (.constant a) op (.constant b)
      else if op = "MUL" then
        match PyVal.pyMul a b with
        | some v => .constant v
        | Option.none => .binaryOp (.constant a) op (.constant b)
      else if op = "DIV" then
        if PyVal.neZero b then
          match PyVal.pyDiv a b with
          | some v => .constant v
          | Option.none => .binaryOp (.constant a) op (.constant b)
        else .binaryOp (.constant a) op (.constant b)
      else if op = "MOD" then
        if PyVal.neZero b then
          match PyVal.pyMod a b with
          | some v => .constant v
          | Option.none => .binaryOp (.constant a) op (.constant b)
        else .binaryOp (.constant a) op (.constant b)
      else .binaryOp (.constant a) op (.constant b)
    | _, _ => .binaryOp l op r
  | .unaryOp op operand =>
    let o := constantFold operand
    match o with
    | .constant v =>
      if op = "NOT" then
        match PyVal.pyNot v with
        | some w => .constant w
        | Option.none => .unaryOp op (.constant v)
      else if op = "NEG" then
        match PyVal.pyNeg v with
        | some w => .constant w
        | Option.none => .unaryOp op (.constant v)
      else .unaryOp op (.constant v)
    | _ => .unaryOp op o
  | .compare left ops comparators =>
    let l := constantFold left
    let cs := constantFoldList comparators
    match l, ops, cs with
    | .constant a, [op], [.constant b] =>
      if op = "EQ" then .constant (.bool (PyVal.pyEqB a b))
      else if op = "NE" then .constant (.bool (!PyVal.pyEqB a b))
      else if op = "LT" then
        match PyVal.pyLt a b with
        | some c => .constant (.bool c)
        | Option.none => .compare (.constant a) ops [.constant b]
      else if op = "LE" then
        match PyVal.pyLe a b with
        | some c => .constant (.bool c)
        | Option.none => .compare (.constant a) ops [.constant b]
      else if op = "GT" then
        match PyVal.pyLt b a with
        | some c => .constant (.bool c)
        | Option.none => .compare (.constant a) ops [.constant b]
      else if op = "GE" then
        match PyVal.pyLe b a with
        | some c => .constant (.bool c)
        | Option.none => .compare (.constant a) ops [.constant b]
      else .compare (.constant a) ops [.constant b]
    | _, _, _ => .compare l ops cs
  | .module body => .module (constantFoldList body)
  | .assignment t v => .assignment t (constantFold v)
  | .expr v => .expr (constantFold v)
  | .ifStmt test body orelse =>
    let t := constantFold test
    match t with
    | .constant v =>
      if PyVal.truthy v then .module (constantFoldList body)
      else .module (constantFoldList orelse)
    | _ => .ifStmt t (constantFoldList body) (constantFoldList orelse)
  | .forStmt target iter body =>
    .forStmt target (constantFold iter) (constantFoldList body)
  | .whileStmt test body =>
    let t := constantFold test
    match t with
    | .constant v =>
      if PyVal.truthy v then .whileStmt (.constant v) (constantFoldList body)
      else .constant .null
    | _ => .whileStmt t (constantFoldList body)
  | .call f args =>
    let folded := constantFoldList args
    if (f = "len" || f = "abs" || f = "min" || f = "max") && folded.all isConst then
      match tryFoldBuiltin f (constVals folded) with
      | some v => .constant v
      | Option.none => .call f folded
    else .call f folded
  | .functionDef n a b => .functionDef n a (constantFoldList b)
  | .ret (some v) => .ret (some (constantFold v))
  | n => n

/-- Pointwise constant folding of a statement or argument list. -/
def constantFoldList : List AST → List AST
  | [] => []
  | a :: as => constantFold a :: constantFoldList as

end

/-- Lookup in the ordered fingerprint map of the CSE pass. -/
def lookupHash : List (String × String) → String → Option String
  | [], _ => Option.none
  | (k, v) :: rest, h => if k = h then some v else lookupHash rest h

mutual

/-- `Optimizer.eliminate_common_subexpressions`. -/
def cse : AST → AST
  | .module body => .module (cseStmts [] body)
  | .functionDef n a b => .functionDef n a (cseList b)
  | .ifStmt t b o => .ifStmt (cse t) (cseList b) (cseList o)
  | .forStmt t i b => .forStmt t (cse i) (cseList b)
  | .whileStmt t b => .whileStmt (cse t) (cseList b)
  | .binaryOp l op r => .binaryOp (cse l) op (cse r)
  | .call f args => .call f (cseList args)
  | .assignment t v => .assignment t (cse v)
  | .ret (some v) => .ret (some (cse v))
  | n => n

/-- Pointwise CSE over a statement list that is not a module body. -/
def cseList : List AST → List AST
  | [] => []
  | a :: as => cse a :: cseList as

/-- The module-level linear scan of the CSE pass, carrying the map
from expression fingerprint to the target of the assignment that
first bound it (entries are inserted only when absent, so the first
binder wins).  The recursive processing of a kept Assignment,
`eliminate_common_subexpressions(stmt)`, is written here in its
one-step unfolded form `Assignment(target, cse value)`. -/
def cseStmts (m : List (String × String)) : List AST → List AST
  | [] => []
  | stmt :: rest =>
    match stmt with
    | .assignment t v =>
      if !isConst v && !isName v then
        let h := hashExpr v
        match lookupHash m h with
        | some prior => .assignment t (.name prior) :: cseStmts m rest
        | Option.none => .assignment t (cse v) :: cseStmts ((h, t) :: m) rest
      else .assignment t (cse v) :: cseStmts m rest
    | s => cse s :: cseStmts m rest

end

mutual

/-- `Optimizer.collect_functions`: walks the tree recording every
FunctionDef that is a direct child of a Module (dict semantics: a
later definition of the same name shadows an earlier one, modelled by
prepending and first-match lookup). -/
def collectFunctions (acc : List (String × AST)) : AST → List (String × AST)
  | .module body => collectModule acc body
  | .functionDef _ _ body => collectStmts acc body
  | .ifStmt _ body orelse => collectStmts (collectStmts acc body) orelse
  | .forStmt _ _ body => collectStmts acc body
  | .whileStmt _ body => collectStmts acc body
  | _ => acc

/-- Module-body loop of `collect_functions`: registers FunctionDef
statements, then recurses into every statement. -/
def collectModule (acc : List (String × AST)) : List AST → List (String × AST)
  | [] => acc
  | stmt :: rest =>
    let acc1 :=
      match stmt with
      | .functionDef n a b => (n, AST.functionDef n a b) :: acc
      | _ => acc
    collectModule (collectFunctions acc1 stmt) rest

/-- Recursion of `collect_functions` into a non-module statement list
(no registration happens here). -/
def collectStmts (acc : List (String × AST)) : List AST → List (String × AST)
  | [] => acc
  | stmt :: rest => collectStmts (collectFunctions acc stmt) rest

end

/-- Set insertion for the recursive-function name set. -/
def insertNameSet (n : String) (acc : List String) : List String :=
  if n ∈ acc then acc else n :: acc

mutual

/-- `Optimizer._find_recursive_calls`: scans for a Call whose name
equals the enclosing function name.  Note that there is no FunctionDef
arm, so the scan never enters a function body when handed the
FunctionDef node itself. -/
def findRecursiveCalls (cur : String) (acc : List String) : AST → List String
  | .call f _ => if f = cur then insertNameSet cur acc else acc
  | .ifStmt _ body orelse => findRecursiveCallsList cur (findRecursiveCallsList cur acc body) orelse
  | .forStmt _ _ body => findRecursiveCallsList cur acc body
  | .whileStmt _ body => findRecursiveCallsList cur acc body
  | .ret (some v) => findRecursiveCalls cur acc v
  | .binaryOp l _ r => findRecursiveCalls cur (findRecursiveCalls cur acc l) r
  | _ => acc

/-- Statement-list loop of `_find_recursive_calls`. -/
def findRecursiveCallsList (cur : String) (acc : List String) : List AST → List String
  | [] => acc
  | s :: rest => findRecursiveCallsList cur (findRecursiveCalls cur acc s) rest

end

mutual

/-- `Optimizer.detect_recursive_functions`.  For a FunctionDef it
hands the FunctionDef node itself to `_find_recursive_calls`, which
has no FunctionDef arm; the recursion set therefore always stays
empty, faithfully mirroring the source. -/
def detectRecursive (acc : List String) : AST → List String
  | .module body => detectRecursiveList acc body
  | .functionDef n args body => findRecursiveCalls n acc (.functionDef n args body)
  | _ => acc

/-- Module-body loop of `detect_recursive_functions`. -/
def detectRecursiveList (acc : List String) : List AST → List String
  | [] => acc
  | s :: rest => detectRecursiveList (detectRecursive acc s) rest

end

mutual

/-- `Optimizer._replace_var_refs`: substitutes a replacement
expression for a variable name, descending only through BinaryOp and
Call nodes (every other node kind is returned untouched). -/
def replaceVarRefs (v : String) (repl : AST) : AST → AST
  | .name i => if i = v then repl else .name i
  | .binaryOp l op r => .binaryOp (replaceVarRefs v repl l) op (replaceVarRefs v repl r)
  | .call f args => .call f (replaceVarRefsList v repl args)
  | n => n

/-- Argument-list loop of `_replace_var_refs`. -/
def replaceVarRefsList (v : String) (repl : AST) : List AST → List AST
  | [] => []
  | a :: as => replaceVarRefs v repl a :: replaceVarRefsList v repl as

end

/-- `Optimizer._transform_fibonacci`: the fixed iterative
two-accumulator body substituted for a recognized `fib` definition. -/
def transformFibonacci (fname : String) (args : List String) : AST :=
  let p := args.headD ""
  .functionDef fname args
    [ .ifStmt (.compare (.name p) ["LT"] [.constant (.int 2)])
        [.ret (some (.name p))] []
    , .assignment "a" (.constant (.int 0))
    , .assignment "b" (.constant (.int 1))
    , .forStmt (.name "i")
        (.call "range"
          [.constant (.int 2), .binaryOp (.name p) "ADD" (.constant (.int 1))])
        [ .assignment "c" (.binaryOp (.name "a") "ADD" (.name "b"))
        , .assignment "a" (.name "b")
        , .assignment "b" (.name "c") ]
    , .ret (some (.name "b")) ]

mutual

/-- `Optimizer.optimize_recursive_functions`: rewrites every
FunctionDef named exactly `fib` with exactly one parameter, whatever
its body, into the iterative form. -/
def optimizeRecursiveFunctions : AST → AST
  | .module body => .module (optimizeRecursiveFunctionsList body)
  | .functionDef n args body =>
    if n = "fib" ∧ args.length = 1 then transformFibonacci n args
    else .functionDef n args (optimizeRecursiveFunctionsList body)
  | .ifStmt t b o =>
    .ifStmt (optimizeRecursiveFunctions t) (optimizeRecursiveFunctionsList b)
      (optimizeRecursiveFunctionsList o)
  | .forStmt t i b =>
    .forStmt t (optimizeRecursiveFunctions i) (optimizeRecursiveFunctionsList b)
  | .whileStmt t b =>
    .whileStmt (optimizeRecursiveFunctions t) (optimizeRecursiveFunctionsList b)
  | n => n

/-- Statement-list loop of `optimize_recursive_functions`. -/
def optimizeRecursiveFunctionsList : List AST → List AST
  | [] => []
  | s :: rest => optimizeRecursiveFunctions s :: optimizeRecursiveFunctionsList rest

end

/-! Bytecode generator (codegen.py). -/

/-- Numeric opcode values of the `OpCode` enum, accessed by name as
`getattr(OpCode, name)` does in `emit` (an unknown name raises). -/
def opcodeOfName (s : String) : Option Nat :=
  if s = "PRINT" then some 1
  else if s = "LOAD_CONST" then some 2
  else if s = "LOAD_INT" then some 3
  else if s = "LOOP_START" then some 4
  else if s = "LOOP_END" then some 5
  else if s = "LOAD_VAR" then some 6
  else if s = "STDIN" then some 7
  else if s = "STORE" then some 8
  else if s = "ADD" then some 9
  else if s = "SUB" then some 10
  else if s = "MUL" then some 11
  else if s = "DIV" then some 12
  else if s = "MOD" then some 13
  else if s = "EQ" then some 14
  else if s = "NE" then some 15
  else if s = "LT" then some 16
  else if s = "LE" then some 17
  else if s = "GT" then some 18
  else if s = "GE" then some 19
  else if s = "AND" then some 20
  else if s = "OR" then some 21
  else if s = "NOT" then some 22
  else if s = "JMP" then some 23
  else if s = "JMP_IF_FALSE" then some 24
  else if s = "JMP_IF_TRUE" then some 25
  else if s = "CALL" then some 26
  else if s = "RET" then some 27
  else if s = "LOAD_FLOAT" then some 28
  else if s = "CAST_INT" then some 29
  else if s = "CAST_FLOAT" then some 30
  else if s = "ARRAY_NEW" then some 31
  else if s = "ARRAY_GET" then some 32
  else if s = "ARRAY_SET" then some 33
  else if s = "ARRAY_LEN" then some 34
  else if s = "DUP" then some 35
  else if s = "SWAP" then some 36
  else if s = "POP" then some 37
  else if s = "LOAD_NULL" then some 38
  else if s = "IS_NULL" then some 39
  else if s = "LOAD_BOOL" then some 40
  else if s = "BUILD_LIST" then some 41
  else if s = "BUILD_TUPLE" then some 42
  else if s = "BUILD_DICT" then some 43
  else Option.none

/-- Big-endian 8-byte rendering of a natural number below 2^64
(`struct.pack` with format >Q). -/
def be8 (v : Nat) : List Nat :=
  [v / 2 ^ 56 % 256, v / 2 ^ 48 % 256, v / 2 ^ 40 % 256, v / 2 ^ 32 % 256,
   v / 2 ^ 24 % 256, v / 2 ^ 16 % 256, v / 2 ^ 8 % 256, v % 256]

/-- Integer immediate encoding of `emit`:
`struct.pack(">Q", arg & ((1 << 64) - 1))`.  Masking a Python int with
`(1 << 64) - 1` equals its nonnegative residue modulo 2^64. -/
def encodeInt (i : Int) : List Nat :=
  be8 (i.emod (2 ^ 64)).toNat

/-- Standard UTF-8 encoding of one code point (1 to 4 bytes). -/
def utf8Bytes (c : Char) : List Nat :=
  let n := c.toNat
  if n < 0x80 then [n]
  else if n < 0x800 then [0xC0 + n / 64, 0x80 + n % 64]
  else if n < 0x10000 then [0xE0 + n / 4096, 0x80 + n / 64 % 64, 0x80 + n % 64]
  else [0xF0 + n / 262144, 0x80 + n / 4096 % 64, 0x80 + n / 64 % 64, 0x80 + n % 64]

/-- UTF-8 bytes of a string (`arg.encode("utf-8")`). -/
def strBytes (s : String) : List Nat :=
  (s.data.map utf8Bytes).flatten

/-- String immediate encoding of `emit`: one length byte holding the
number of UTF-8 bytes, then those bytes.  (The Python list accepts a
length above 255 here; the final `bytes()` conversion then fails, see
`generate`.) -/
def encodeStr (s : String) : List Nat :=
  let b := strBytes s
  b.length :: b

/-- Float immediate encoding (`struct.pack(">d", arg)`).  The eight
byte values stand in for the IEEE-754 big-endian encoding, which the
rational float model cannot reproduce bit-exactly; every theorem
depends only on the length of this field, never on its contents. -/
def floatBytes (q : Rat) : List Nat :=
  be8 (q.num.natAbs * 2 ^ 11 + q.den)

/-- Arguments accepted by `emit` at its reachable call sites. -/
inductive EmitArg where
  | intA (i : Int)
  | floatA (q : Rat)
  | strA (s : String)

/-- Byte rendering of one `emit` argument, by dynamic type as in the
source (`int` before `float` before `str`; bools never reach here). -/
def encodeArg : EmitArg → List Nat
  | .intA i => encodeInt i
  | .floatA q => floatBytes q
  | .strA s => encodeStr s

/-- Mutable state of `CodeGenerator`: the byte list under construction
and the function-address table (`self.variables` and `self.functions`
are never read by the source and are omitted).  The address table is
a dict modelled by prepend-and-first-match lookup. -/
structure GenState where
  bytecode : List Nat
  functionAddresses : List (String × Nat)

/-- `CodeGenerator.emit`: resolve the opcode name, append the opcode
byte, then append the encoding of each argument in order. -/
def emitS (name : String) (args : List EmitArg) (s : GenState) :
    Except String GenState :=
  match opcodeOfName name with
  | some op =>
    .ok { s with bytecode := s.bytecode ++ op :: (args.map encodeArg).flatten }
  | Option.none => .error ("type object OpCode has no attribute " ++ name)

/-- Slice assignment `bytecode[pos+1 : pos+9] = struct.pack(">Q", v)`:
overwrite the eight operand bytes after the opcode at `pos`. -/
def patch8 (bc : List Nat) (pos v : Nat) : List Nat :=
  bc.take (pos + 1) ++ be8 v ++ bc.drop (pos + 9)

/-- Patch step with the `struct.pack(">Q", v)` range check (values of
2^64 or more raise `struct.error`). -/
def patchQ (s : GenState) (pos v : Nat) : Except String GenState :=
  if v < 2 ^ 64 then .ok { s with bytecode := patch8 s.bytecode pos v }
  else .error "int too large for pack >Q"

/-- First-match lookup in the function-address table. -/
def lookupFA : List (String × Nat) → String → Option Nat
  | [], _ => Option.none
  | (k, v) :: rest, f => if k = f then some v else lookupFA rest f

/-- The `Constant` arm of `visit_node`.  The source tests str, int,
float, bool, None in that order with `isinstance`; because Python bool
is a subclass of int, a boolean passes the int test first and is
emitted as LOAD_INT 1 or 0 (8-byte operand) — the LOAD_BOOL branch of
the source is unreachable. -/
def visitConstant (v : PyVal) (s : GenState) : Except String GenState :=
  match v with
  | .str t => emitS "LOAD_CONST" [.strA t] s
  | .int i => emitS "LOAD_INT" [.intA i] s
  | .float q => emitS "LOAD_FLOAT" [.floatA q] s
  | .bool b => emitS "LOAD_INT" [.intA (if b then 1 else 0)] s
  | .null => emitS "LOAD_NULL" [] s

/-- Emission loop for the precomputed values of a constant `range`
call: one LOAD_INT per value. -/
def emitLoadInts : List Int → GenState → Except String GenState
  | [], s => .ok s
  | v :: rest, s => do
    let s1 ← emitS "LOAD_INT" [.intA v] s
    emitLoadInts rest s1

/-- Prologue loop of `generate_function`: one STORE per parameter
(the caller passes the reversed parameter list). -/
def emitStores : List String → GenState → Except String GenState
  | [], s => .ok s
  | p :: rest, s => do
    let s1 ← emitS "STORE" [.strA p] s
    emitStores rest s1

/-- Evaluation of `list(range(a, b))` on two constant payloads:
defined exactly on int/bool bounds, a `TypeError` otherwise. -/
def rangeValues (a b : PyVal) : Except String (List Int) :=
  match PyVal.intOf a, PyVal.intOf b with
  | some x, some y => .ok ((List.range (y - x).toNat).map (fun k => x + k))
  | _, _ => .error "range arg must not be float or str"

/-- The `NameError` raised by line 175 of codegen.py: the name
`FString` is not defined anywhere in the repository, so every node
that falls past the `Constant` case of the elif chain raises before
its own case can be reached. -/
def fstringNameError : String := "name FString is not defined"

mutual

/-- `CodeGenerator.visit_node`.  The Module, Assignment, Expr, Call,
Name and Constant arms mirror the source (the Call arm is split out
as `visitCall`); every other node kind (BinaryOp, Compare, BoolOp,
UnaryOp, If, For, While, ListNode, Return) reaches the
`isinstance(node, FString)` test first and raises `NameError` because
`FString` is undefined — those arms of the source are dead code. -/
def visitNode : AST → GenState → Except String GenState
  | .module body, s => do
    let mainStartPos := s.bytecode.length
    let s1 ← emitS "JMP" [.intA 0] s
    let s2 ← genFunctions body s1
    let s3 ← patchQ s2 mainStartPos s2.bytecode.length
    visitMainStmts body s3
  | .assignment t v, s => do
    let s1 ← visitNode v s
    emitS "STORE" [.strA t] s1
  | .expr v, s => do
    let s1 ← visitNode v s
    if isCall v then .ok s1 else emitS "POP" [] s1
  | .call f args, s => visitCall f args s
  | .name i, s => emitS "LOAD_VAR" [.strA i] s
  | .constant v, s => visitConstant v s
  | _, s => .error fstringNameError
termination_by n _s => (sizeOf n, 2)

/-- The Call arm of `visit_node`, dispatching on the function name. -/
def visitCall (f : String) (args : List AST) (s : GenState) :
    Except String GenState :=
  if f = "print" then
    if args.isEmpty then do
      let s1 ← emitS "LOAD_CONST" [.strA ""] s
      emitS "PRINT" [] s1
    else do
      let s1 ← visitList args s
      emitS "PRINT" [] s1
  else if f = "input" then emitS "STDIN" [] s
  else if f = "len" then
    match args with
    | [] => .ok s
    | a :: _ => do
      let s1 ← visitNode a s
      emitS "ARRAY_LEN" [] s1
  else if f = "int" then
    match args with
    | [] => .ok s
    | a :: _ => do
      let s1 ← visitNode a s
      emitS "CAST_INT" [] s1
  else if f = "float" then
    match args with
    | [] => .ok s
    | a :: _ => do
      let s1 ← visitNode a s
      emitS "CAST_FLOAT" [] s1
  else if f = "range" then
    match args with
    | .constant av :: .constant bv :: _ => do
      let vals ← rangeValues av bv
      let s1 ← emitLoadInts vals s
      emitS "BUILD_LIST" [.intA (vals.length : Int)] s1
    | _ => .ok s
  else
    match lookupFA s.functionAddresses f with
    | some addr => do
      let s1 ← visitList args s
      emitS "CALL" [.intA (addr : Int)] s1
    | Option.none => .ok s
termination_by (sizeOf args, 1)

/-- Sequential visit of a list of nodes (function bodies, call
arguments). -/
def visitList : List AST → GenState → Except String GenState
  | [], s => .ok s
  | a :: rest, s => do
    let s1 ← visitNode a s
    visitList rest s1
termination_by l _s => (sizeOf l, 0)

/-- First module loop: generate every FunctionDef statement.  The body
of `generate_function` is written inline here (see `generateFunction`
below for the standalone form and `genFunctions_cons_functionDef` for
their agreement). -/
def genFunctions : List AST → GenState → Except String GenState
  | [], s => .ok s
  | stmt :: rest, s =>
    match stmt with
    | .functionDef n args body => do
      let funcStart := s.bytecode.length
      let s0 : GenState :=
        { s with functionAddresses := (n, funcStart) :: s.functionAddresses }
      let s1 ← emitStores args.reverse s0
      let s2 ← visitList body s1
      let s3 ← emitS "LOAD_NULL" [] s2
      let s4 ← emitS "RET" [] s3
      genFunctions rest s4
    | _ => genFunctions rest s
termination_by l _s => (sizeOf l, 0)

/-- Second module loop: visit every non-FunctionDef statement. -/
def visitMainStmts : List AST → GenState → Except String GenState
  | [], s => .ok s
  | stmt :: rest, s =>
    match stmt with
    | .functionDef _ _ _ => visitMainStmts rest s
    | st => do
      let s1 ← visitNode st s
      visitMainStmts rest s1
termination_by l _s => (sizeOf l, 0)

end

/-- `CodeGenerator.generate_function`: record the current offset as
the function address, emit STOREs for the parameters in reverse
order, emit the body, then the LOAD_NULL / RET epilogue. -/
def generateFunction (n : String) (params : List String) (body : List AST)
    (s : GenState) : Except String GenState := do
  let funcStart := s.bytecode.length
  let s0 : GenState :=
    { s with functionAddresses := (n, funcStart) :: s.functionAddresses }
  let s1 ← emitStores params.reverse s0
  let s2 ← visitList body s1
  let s3 ← emitS "LOAD_NULL" [] s2
  emitS "RET" [] s3

/-- `CodeGenerator.generate`: visit the tree from an empty state and
convert the byte list with `bytes(...)` (which rejects any element
outside 0..255 — possible only via an oversized string length byte).
Every exception is caught and re-raised as a compilation error whose
message names the codegen phase. -/
def generate (m : AST) : Except String (List Nat) :=
  match visitNode m ⟨[], []⟩ with
  | .ok s =>
    if s.bytecode.all (fun b => b < 256) then .ok s.bytecode
    else .error ("Codegen error: " ++ "bytes must be in range 0..255")
  | .error e => .error ("Codegen error: " ++ e)

/-!
Instruction-stream decoder.  This part is not a translation of source
code: it formalizes the instruction layout of the documented opcode
table (one opcode byte followed by its operand bytes) so that "offset
of the start of some instruction" can be stated about a produced byte
stream.
-/

/-- Opcodes carrying an 8-byte operand: LOAD_INT, the JMP family,
CALL, LOAD_FLOAT and the BUILD family. -/
def opnd8 : List Nat := [3, 23, 24, 25, 26, 28, 41, 42, 43]

/-- Opcodes carrying a length-prefixed string operand: LOAD_CONST,
LOAD_VAR and STORE. -/
def opndStr : List Nat := [2, 6, 8]

/-- Opcodes carrying a single immediate byte: LOAD_BOOL. -/
def opnd1 : List Nat := [40]

/-- Opcodes with no operand. -/
def opnd0 : List Nat :=
  [1, 4, 5, 7, 9, 10, 11, 12, 13, 14, 15, 16, 17, 18, 19, 20, 21, 22,
   27, 29, 30, 31, 32, 33, 34, 35, 36, 37, 38, 39]

/-- Number of operand bytes of the instruction starting at offset `p`
(for a string operand, the length byte plus the announced payload). -/
def operandLen (bc : List Nat) (p : Nat) : Option Nat :=
  match bc[p]? with
  | some b =>
    if b ∈ opnd8 then some 8
    else if b ∈ opndStr then (bc[p + 1]?).map (fun n => 1 + n)
    else if b ∈ opnd1 then some 1
    else if b ∈ opnd0 then some 0
    else Option.none
  | Option.none => Option.none

/-- Decode the stream from offset `p`, returning the list of
instruction-start offsets when the scan consumes the bytes exactly. -/
def scanFrom (bc : List Nat) (p : Nat) : Option (List Nat) :=
  if _h : p < bc.length then
    match operandLen bc p with
    | some k => (scanFrom bc (p + 1 + k)).map (fun L => p :: L)
    | Option.none => Option.none
  else if p = bc.length then some [] else Option.none
termination_by bc.length - p
decreasing_by omega

/-- The instruction-start offsets of a byte stream. -/
def starts (bc : List Nat) : List Nat := (scanFrom bc 0).getD []

/-- Big-endian read of the eight bytes following an opcode byte. -/
def readBE8 (bc : List Nat) (i : Nat) : Nat :=
  (bc[i]?.getD 0) * 2 ^ 56 + (bc[i + 1]?.getD 0) * 2 ^ 48 +
    (bc[i + 2]?.getD 0) * 2 ^ 40 + (bc[i + 3]?.getD 0) * 2 ^ 32 +
    (bc[i + 4]?.getD 0) * 2 ^ 24 + (bc[i + 5]?.getD 0) * 2 ^ 16 +
    (bc[i + 6]?.getD 0) * 2 ^ 8 + (bc[i + 7]?.getD 0)

/-- The opcodes whose operand is an absolute jump or call target. -/
def jumpOps : List Nat := [23, 24, 25, 26]

/-- Generator-state invariant: the byte stream decodes completely;
every function-table address and every jump operand denotes an
instruction start or the end-of-stream offset (operands are stored
reduced modulo 2^64, the width of the operand field). -/
def Inv (s : GenState) : Prop :=
  ∃ L, scanFrom s.bytecode 0 = some L ∧
    (∀ pr ∈ s.functionAddresses, pr.2 ∈ L ∨ pr.2 = s.bytecode.length) ∧
    (∀ i ∈ L, ∀ b, s.bytecode[i]? = some b → b ∈ jumpOps →
      ∃ t, readBE8 s.bytecode (i + 1) = t % 2 ^ 64 ∧
        (t ∈ L ∨ t = s.bytecode.length))

/-- Whether a node is a FunctionDef. -/
def isFunctionDef : AST → Bool
  | .functionDef _ _ _ => true
  | _ => false

/-- Bind on an ok result reduces. -/
theorem exceptOk_bind {α β : Type} (a : α) (f : α → Except String β) :
    (Except.ok a >>= f) = f a := rfl

/-- Bind on an error result propagates the error. -/
theorem exceptError_bind {α β : Type} (e : String) (f : α → Except String β) :
    ((Except.error e : Except String α) >>= f) = Except.error e := rfl

/-- Bind is associative. -/
theorem exceptBind_assoc {α β γ : Type} (x : Except String α)
    (f : α → Except String β) (g : β → Except String γ) :
    ((x >>= f) >>= g) = (x >>= fun a => f a >>= g) := by
  cases x <;> rfl


/-- Unfolding of the second module loop on a cons cell. -/
theorem visitMainStmts_cons (a : AST) (l : List AST) (s : GenState) :
    visitMainStmts (a :: l) s =
      if isFunctionDef a then visitMainStmts l s
      else visitNode a s >>= visitMainStmts l := by
  cases a <;> simp [visitMainStmts, isFunctionDef]

/-- The inlined function-generation arm of `genFunctions` agrees with
the standalone `generateFunction`. -/
theorem genFunctions_cons_functionDef (n : String) (args : List String)
    (body rest : List AST) (s : GenState) :
    genFunctions (.functionDef n args body :: rest) s =
      generateFunction n args body s >>= genFunctions rest := by
  simp only [genFunctions, generateFunction, exceptBind_assoc]

/-- A For statement always fails in `visit_node`: the elif chain
evaluates `isinstance(node, FString)` first and `FString` is
undefined. -/
theorem visitNode_forStmt (t iter : AST) (body : List AST) (s : GenState) :
    visitNode (.forStmt t iter body) s = .error fstringNameError := by
  simp [visitNode]

/-- A statement list containing a For statement makes the main-loop
visit fail with some exception. -/
theorem visitMainStmts_for_error (t iter : AST) (body post : List AST) :
    ∀ (pre : List AST) (s : GenState),
      ∃ e, visitMainStmts (pre ++ .forStmt t iter body :: post) s = .error e := by
  intro pre
  induction pre with
  | nil =>
    intro s
    refine ⟨fstringNameError, ?_⟩
    rw [List.nil_append, visitMainStmts_cons]
    simp [isFunctionDef, visitNode_forStmt, exceptError_bind]
  | cons a rest ih =>
    intro s
    rw [List.cons_append, visitMainStmts_cons]
    by_cases hf : isFunctionDef a = true
    · simpa [hf] using ih s
    · simp only [hf, if_false]
      cases h : visitNode a s with
      | error e => exact ⟨e, by simp [exceptError_bind]⟩
      | ok s1 =>
        obtain ⟨e, he⟩ := ih s1
        exact ⟨e, by simp [exceptOk_bind, he]⟩

/-- Unfolding of the Module arm of `visit_node`. -/
theorem visitNode_module (body : List AST) (s : GenState) :
    visitNode (.module body) s =
      (emitS "JMP" [.intA 0] s >>= fun s1 =>
        genFunctions body s1 >>= fun s2 =>
        patchQ s2 s.bytecode.length s2.bytecode.length >>= fun s3 =>
        visitMainStmts body s3) := by
  conv_lhs => rw [visitNode]

/-- C2: for every For statement whose iter is not a `range` call (or
lacks the supported shape), code generation of a module containing it
fails with a structured compilation error naming the codegen phase.
The theorem quantifies over arbitrary For statements — non-range
iters and badly-shaped `range` calls alike, so every case of the
claim is covered: the undefined-name check at codegen.py line 175
raises before the For arm is reached, whatever the iter is. -/
theorem c2_for_non_range_rejected (pre post : List AST) (t iter : AST)
    (body : List AST) :
    ∃ msg, generate (.module (pre ++ .forStmt t iter body :: post)) =
      .error ("Codegen error: " ++ msg) := by
  have hmod := visitNode_module (pre ++ .forStmt t iter body :: post) ⟨[], []⟩
  rw [show emitS "JMP" [.intA 0] (⟨[], []⟩ : GenState) =
      .ok ⟨[23, 0, 0, 0, 0, 0, 0, 0, 0], []⟩ from rfl, exceptOk_bind] at hmod
  cases hg : genFunctions (pre ++ .forStmt t iter body :: post)
      ⟨[23, 0, 0, 0, 0, 0, 0, 0, 0], []⟩ with
  | error e =>
    refine ⟨e, ?_⟩
    rw [hg, exceptError_bind] at hmod
    simp [generate, hmod]
  | ok s2 =>
    rw [hg, exceptOk_bind] at hmod
    cases hp : patchQ s2 (List.length []) s2.bytecode.length with
    | error e =>
      refine ⟨e, ?_⟩
      rw [hp, exceptError_bind] at hmod
      simp [generate, hmod]
    | ok s3 =>
      rw [hp, exceptOk_bind] at hmod
      obtain ⟨e, he⟩ := visitMainStmts_for_error t iter body post pre s3
      refine ⟨e, ?_⟩
      rw [he] at hmod
      simp [generate, hmod]

/-- Witness for C2: a For over a plain name is rejected by codegen. -/
theorem c2_witness :
    ∃ msg, generate (.module [.forStmt (.name "i") (.name "xs") []]) =
      .error ("Codegen error: " ++ msg) :=
  c2_for_non_range_rejected [] [] (.name "i") (.name "xs") []

/-- C3 (code bug): evaluation at the failing input.  A boolean
constant passes the `isinstance(node.value, int)` test of the source
(Python bool is a subclass of int) before the bool test is reached, so
`Constant(True)` emits LOAD_INT (opcode 3) with the 8-byte operand 1,
not LOAD_BOOL (opcode 40) with a 1-byte immediate as the claim and
the dead `elif isinstance(node.value, bool)` branch intend. -/
theorem c3_bool_constant_emits_load_int :
    visitNode (.constant (.bool true)) ⟨[], []⟩ =
        .ok ⟨[3, 0, 0, 0, 0, 0, 0, 0, 1], []⟩ ∧
    visitNode (.constant (.bool false)) ⟨[], []⟩ =
        .ok ⟨[3, 0, 0, 0, 0, 0, 0, 0, 0], []⟩ := by
  constructor <;>
    simp +decide [visitNode, visitConstant, emitS, opcodeOfName, encodeArg,
      encodeInt, be8]

/-- Unfolding of the Call arm of `visit_node`. -/
theorem visitNode_call (f : String) (args : List AST) (s : GenState) :
    visitNode (.call f args) s = visitCall f args s := by
  conv_lhs => rw [visitNode]

/-- C10: a Call to a name that is none of the recognized builtins and
is absent from the function-address table emits nothing and raises
nothing: the generator state is returned unchanged (the byte stream
is exactly what it would be without the call). -/
theorem c10_unknown_call_emits_nothing (f : String) (args : List AST)
    (s : GenState)
    (h1 : f ≠ "print") (h2 : f ≠ "input") (h3 : f ≠ "len") (h4 : f ≠ "int")
    (h5 : f ≠ "float") (h6 : f ≠ "range")
    (h7 : lookupFA s.functionAddresses f = Option.none) :
    visitNode (.call f args) s = .ok s := by
  rw [visitNode_call, visitCall.eq_def, if_neg h1, if_neg h2, if_neg h3,
    if_neg h4, if_neg h5, if_neg h6, h7]

/-- Witness for C10: an unknown call with an argument emits nothing. -/
theorem c10_witness :
    visitNode (.call "launch" [.name "x"]) ⟨[], []⟩ =
      .ok (⟨[], []⟩ : GenState) :=
  c10_unknown_call_emits_nothing "launch" [.name "x"] ⟨[], []⟩
    (by decide) (by decide) (by decide) (by decide) (by decide) (by decide) rfl

/-- Bind equals ok exactly when both stages are ok. -/
theorem exceptBind_ok {α β : Type} (x : Except String α)
    (f : α → Except String β) (b : β) :
    (x >>= f) = .ok b ↔ ∃ a, x = .ok a ∧ f a = .ok b := by
  cases x with
  | error e => simp [exceptError_bind]
  | ok a => simp [exceptOk_bind]

/-- Successful emission appends the opcode byte and the encoded
arguments, leaving the function table unchanged. -/
theorem emitS_ok {name : String} {args : List EmitArg} {s s' : GenState}
    (h : emitS name args s = .ok s') :
    ∃ op, opcodeOfName name = some op ∧
      s'.bytecode = s.bytecode ++ op :: (args.map encodeArg).flatten ∧
      s'.functionAddresses = s.functionAddresses := by
  unfold emitS at h
  cases hop : opcodeOfName name with
  | some op =>
    rw [hop] at h
    simp only [Except.ok.injEq] at h
    exact ⟨op, rfl, by rw [← h], by rw [← h]⟩
  | none =>
    rw [hop] at h
    exact absurd h (by simp)

/-- Successful patching requires the value to fit 64 bits and
overwrites the operand field in place. -/
theorem patchQ_ok {s s' : GenState} {pos v : Nat}
    (h : patchQ s pos v = .ok s') :
    v < 2 ^ 64 ∧ s'.bytecode = patch8 s.bytecode pos v ∧
      s'.functionAddresses = s.functionAddresses := by
  unfold patchQ at h
  by_cases hv : v < 2 ^ 64
  · rw [if_pos hv] at h
    simp only [Except.ok.injEq] at h
    exact ⟨hv, by rw [← h], by rw [← h]⟩
  · rw [if_neg hv] at h
    exact absurd h (by simp)

/-- Patching at an offset at or past a prefix leaves the prefix
intact. -/
theorem patch8_append (bc0 δ : List Nat) (pos v : Nat)
    (h : bc0.length ≤ pos) :
    patch8 (bc0 ++ δ) pos v =
      bc0 ++ (δ.take (pos + 1 - bc0.length) ++ be8 v ++
        δ.drop (pos + 9 - bc0.length)) := by
  unfold patch8
  rw [List.take_append_eq_append_take, List.drop_append_eq_append_drop,
    List.take_of_length_le (by omega), List.drop_of_length_le (by omega)]
  simp [List.append_assoc]

/-- The STORE loop appends one STORE instruction per name. -/
theorem emitStores_ok :
    ∀ (ps : List String) (s s' : GenState), emitStores ps s = .ok s' →
      s'.bytecode = s.bytecode ++ (ps.map (fun p => 8 :: encodeStr p)).flatten ∧
        s'.functionAddresses = s.functionAddresses := by
  intro ps
  induction ps with
  | nil =>
    intro s s' h
    simp only [emitStores, Except.ok.injEq] at h
    simp [← h]
  | cons p rest ih =>
    intro s s' h
    simp only [emitStores] at h
    rw [exceptBind_ok] at h
    obtain ⟨s1, h1, h2⟩ := h
    obtain ⟨op, hop, hbc, hfa⟩ := emitS_ok h1
    have hop8 : op = 8 := by
      rw [show opcodeOfName "STORE" = some 8 from rfl] at hop
      exact (Option.some.injEq _ _).mp hop.symm
    obtain ⟨hbc2, hfa2⟩ := ih s1 s' h2
    subst hop8
    constructor
    · rw [hbc2, hbc]
      simp [encodeArg, List.append_assoc]
    · rw [hfa2, hfa]

/-- The LOAD_INT loop extends the byte stream and keeps the table. -/
theorem emitLoadInts_ok :
    ∀ (vals : List Int) (s s' : GenState), emitLoadInts vals s = .ok s' →
      (∃ δ, s'.bytecode = s.bytecode ++ δ) ∧
        s'.functionAddresses = s.functionAddresses := by
  intro vals
  induction vals with
  | nil =>
    intro s s' h
    simp only [emitLoadInts, Except.ok.injEq] at h
    simp [← h]
  | cons v rest ih =>
    intro s s' h
    simp only [emitLoadInts] at h
    rw [exceptBind_ok] at h
    obtain ⟨s1, h1, h2⟩ := h
    obtain ⟨op, _, hbc, hfa⟩ := emitS_ok h1
    obtain ⟨⟨δ2, hbc2⟩, hfa2⟩ := ih s1 s' h2
    refine ⟨⟨op :: (List.map encodeArg [.intA v]).flatten ++ δ2, ?_⟩,
      by rw [hfa2, hfa]⟩
    rw [hbc2, hbc, List.append_assoc]

/-- Byte-stream extension is transitive. -/
theorem ext_trans {b1 b2 b3 : List Nat}
    (h1 : ∃ δ, b2 = b1 ++ δ) (h2 : ∃ δ, b3 = b2 ++ δ) :
    ∃ δ, b3 = b1 ++ δ := by
  obtain ⟨d1, e1⟩ := h1
  obtain ⟨d2, e2⟩ := h2
  exact ⟨d1 ++ d2, by rw [e2, e1, List.append_assoc]⟩

/-- Visiting a constant extends the byte stream and keeps the table. -/
theorem visitConstant_ext {v : PyVal} {s s' : GenState}
    (h : visitConstant v s = .ok s') :
    (∃ δ, s'.bytecode = s.bytecode ++ δ) ∧
      s'.functionAddresses = s.functionAddresses := by
  cases v <;>
    · simp only [visitConstant] at h
      obtain ⟨op, _, hbc, hfa⟩ := emitS_ok h
      exact ⟨⟨_, hbc⟩, hfa⟩

/-! Arm-level unfolding lemmas for the code generator. -/

/-- Unfolding of the Assignment arm. -/
theorem visitNode_assignment (t : String) (v : AST) (s : GenState) :
    visitNode (.assignment t v) s =
      (visitNode v s >>= fun s1 => emitS "STORE" [.strA t] s1) := by
  conv_lhs => rw [visitNode]

/-- Unfolding of the Expr arm. -/
theorem visitNode_expr (v : AST) (s : GenState) :
    visitNode (.expr v) s =
      (visitNode v s >>= fun s1 =>
        if isCall v then .ok s1 else emitS "POP" [] s1) := by
  conv_lhs => rw [visitNode]

/-- Unfolding of the Name arm. -/
theorem visitNode_name (i : String) (s : GenState) :
    visitNode (.name i) s = emitS "LOAD_VAR" [.strA i] s := by
  simp [visitNode]

/-- Unfolding of the Constant arm. -/
theorem visitNode_constant (v : PyVal) (s : GenState) :
    visitNode (.constant v) s = visitConstant v s := by
  simp [visitNode]

/-- BinaryOp is dead code in the generator (undefined `FString`). -/
theorem visitNode_binaryOp (l : AST) (op : String) (r : AST) (s : GenState) :
    visitNode (.binaryOp l op r) s = .error fstringNameError := by
  simp [visitNode]

/-- UnaryOp is dead code in the generator. -/
theorem visitNode_unaryOp (op : String) (o : AST) (s : GenState) :
    visitNode (.unaryOp op o) s = .error fstringNameError := by
  simp [visitNode]

/-- Compare is dead code in the generator. -/
theorem visitNode_compare (l : AST) (ops : List String) (cs : List AST)
    (s : GenState) :
    visitNode (.compare l ops cs) s = .error fstringNameError := by
  simp [visitNode]

/-- BoolOp is dead code in the generator. -/
theorem visitNode_boolOp (op : String) (vs : List AST) (s : GenState) :
    visitNode (.boolOp op vs) s = .error fstringNameError := by
  simp [visitNode]

/-- If is dead code in the generator. -/
theorem visitNode_ifStmt (t : AST) (b o : List AST) (s : GenState) :
    visitNode (.ifStmt t b o) s = .error fstringNameError := by
  simp [visitNode]

/-- While is dead code in the generator. -/
theorem visitNode_whileStmt (t : AST) (b : List AST) (s : GenState) :
    visitNode (.whileStmt t b) s = .error fstringNameError := by
  simp [visitNode]

/-- ListNode is dead code in the generator. -/
theorem visitNode_listNode (elts : List AST) (s : GenState) :
    visitNode (.listNode elts) s = .error fstringNameError := by
  simp [visitNode]

/-- Return is dead code in the generator. -/
theorem visitNode_ret (v : Option AST) (s : GenState) :
    visitNode (.ret v) s = .error fstringNameError := by
  simp [visitNode]

/-- A FunctionDef reaching `visit_node` directly (they are filtered
out by the two module loops) also hits the `FString` test. -/
theorem visitNode_functionDef (n : String) (a : List String) (b : List AST)
    (s : GenState) :
    visitNode (.functionDef n a b) s = .error fstringNameError := by
  simp [visitNode]

/-- Unfolding of the empty visit loop. -/
theorem visitList_nil (s : GenState) : visitList [] s = .ok s := by
  simp [visitList]

/-- Unfolding of the visit loop on a cons. -/
theorem visitList_cons (a : AST) (rest : List AST) (s : GenState) :
    visitList (a :: rest) s = (visitNode a s >>= visitList rest) := by
  conv_lhs => rw [visitList]

/-- Unfolding of the empty function loop. -/
theorem genFunctions_nil (s : GenState) : genFunctions [] s = .ok s := by
  simp [genFunctions]

/-- The function loop skips non-FunctionDef statements. -/
theorem genFunctions_cons_other (a : AST) (rest : List AST) (s : GenState)
    (ha : isFunctionDef a = false) :
    genFunctions (a :: rest) s = genFunctions rest s := by
  cases a <;> simp [isFunctionDef] at ha <;> simp [genFunctions]

/-- Unfolding of the empty main loop. -/
theorem visitMainStmts_nil (s : GenState) : visitMainStmts [] s = .ok s := by
  simp [visitMainStmts]

/-- Every successful visit only appends to the byte stream: patches
always land inside the region emitted by the node being visited, so
the bytes present on entry are preserved. -/
theorem visit_ext_bounded :
    ∀ K : Nat,
      (∀ n : AST, sizeOf n ≤ K → ∀ s s', visitNode n s = .ok s' →
        ∃ δ, s'.bytecode = s.bytecode ++ δ) ∧
      (∀ args : List AST, sizeOf args ≤ K → ∀ f s s',
        visitCall f args s = .ok s' → ∃ δ, s'.bytecode = s.bytecode ++ δ) ∧
      (∀ l : List AST, sizeOf l ≤ K → ∀ s s', visitList l s = .ok s' →
        ∃ δ, s'.bytecode = s.bytecode ++ δ) ∧
      (∀ l : List AST, sizeOf l ≤ K → ∀ s s', genFunctions l s = .ok s' →
        ∃ δ, s'.bytecode = s.bytecode ++ δ) ∧
      (∀ l : List AST, sizeOf l ≤ K → ∀ s s', visitMainStmts l s = .ok s' →
        ∃ δ, s'.bytecode = s.bytecode ++ δ) := by
  intro K
  induction K with
  | zero =>
    refine ⟨?_, ?_, ?_, ?_, ?_⟩
    · intro n hn
      exfalso
      cases n <;> simp at hn
    · intro args ha
      exfalso
      cases args <;> simp at ha
    · intro l hl
      exfalso
      cases l <;> simp at hl
    · intro l hl
      exfalso
      cases l <;> simp at hl
    · intro l hl
      exfalso
      cases l <;> simp at hl
  | succ K ih =>
    obtain ⟨ihA, ihC, ihL, ihG, ihM⟩ := ih
    -- visit loop at level K+1
    have stepL : ∀ l : List AST, sizeOf l ≤ K + 1 → ∀ s s',
        visitList l s = .ok s' → ∃ δ, s'.bytecode = s.bytecode ++ δ := by
      intro l hl s s' h
      cases l with
      | nil =>
        rw [visitList_nil] at h
        exact ⟨[], by simp [← Except.ok.injEq _ s' |>.mp h]⟩
      | cons a rest =>
        have ha : sizeOf a ≤ K := by simp at hl; omega
        have hrest : sizeOf rest ≤ K := by simp at hl; omega
        rw [visitList_cons, exceptBind_ok] at h
        obtain ⟨s1, h1, h2⟩ := h
        obtain ⟨δ1, hδ1⟩ := ihA a ha s s1 h1
        obtain ⟨δ2, hδ2⟩ := ihL rest hrest s1 s' h2
        exact ⟨δ1 ++ δ2, by rw [hδ2, hδ1, List.append_assoc]⟩
    -- call dispatch at level K+1
    have stepC : ∀ args : List AST, sizeOf args ≤ K + 1 → ∀ f s s',
        visitCall f args s = .ok s' → ∃ δ, s'.bytecode = s.bytecode ++ δ := by
      intro args hargs f s s' h
      rw [visitCall.eq_def] at h
      split at h
      · -- print
        split at h
        · rw [exceptBind_ok] at h
          obtain ⟨s1, h1, h2⟩ := h
          obtain ⟨_, _, hbc1, _⟩ := emitS_ok h1
          obtain ⟨_, _, hbc2, _⟩ := emitS_ok h2
          exact ⟨_, by rw [hbc2, hbc1, List.append_assoc]⟩
        · rw [exceptBind_ok] at h
          obtain ⟨s1, h1, h2⟩ := h
          obtain ⟨δ1, hδ1⟩ := stepL args hargs s s1 h1
          obtain ⟨_, _, hbc2, _⟩ := emitS_ok h2
          exact ⟨_, by rw [hbc2, hδ1, List.append_assoc]⟩
      · split at h
        · -- input
          obtain ⟨_, _, hbc, _⟩ := emitS_ok h
          exact ⟨_, hbc⟩
        · split at h
          · -- len
            split at h
            · exact ⟨[], by simp [← Except.ok.injEq _ s' |>.mp h]⟩
            · rename_i a tail
              have ha : sizeOf a ≤ K := by simp at hargs; omega
              rw [exceptBind_ok] at h
              obtain ⟨s1, h1, h2⟩ := h
              obtain ⟨δ1, hδ1⟩ := ihA a ha s s1 h1
              obtain ⟨_, _, hbc2, _⟩ := emitS_ok h2
              exact ⟨_, by rw [hbc2, hδ1, List.append_assoc]⟩
          · split at h
            · -- int
              split at h
              · exact ⟨[], by simp [← Except.ok.injEq _ s' |>.mp h]⟩
              · rename_i a tail
                have ha : sizeOf a ≤ K := by simp at hargs; omega
                rw [exceptBind_ok] at h
                obtain ⟨s1, h1, h2⟩ := h
                obtain ⟨δ1, hδ1⟩ := ihA a ha s s1 h1
                obtain ⟨_, _, hbc2, _⟩ := emitS_ok h2
                exact ⟨_, by rw [hbc2, hδ1, List.append_assoc]⟩
            · split at h
              · -- float
                split at h
                · exact ⟨[], by simp [← Except.ok.injEq _ s' |>.mp h]⟩
                · rename_i a tail
                  have ha : sizeOf a ≤ K := by simp at hargs; omega
                  rw [exceptBind_ok] at h
                  obtain ⟨s1, h1, h2⟩ := h
                  obtain ⟨δ1, hδ1⟩ := ihA a ha s s1 h1
                  obtain ⟨_, _, hbc2, _⟩ := emitS_ok h2
                  exact ⟨_, by rw [hbc2, hδ1, List.append_assoc]⟩
              · split at h
                · -- range
                  split at h
                  · rw [exceptBind_ok] at h
                    obtain ⟨vals, hv, h⟩ := h
                    rw [exceptBind_ok] at h
                    obtain ⟨s1, h1, h2⟩ := h
                    obtain ⟨⟨δ1, hδ1⟩, _⟩ := emitLoadInts_ok vals s s1 h1
                    obtain ⟨_, _, hbc2, _⟩ := emitS_ok h2
                    exact ⟨_, by rw [hbc2, hδ1, List.append_assoc]⟩
                  · exact ⟨[], by simp [← Except.ok.injEq _ s' |>.mp h]⟩
                · -- user function or unknown
                  split at h
                  · rw [exceptBind_ok] at h
                    obtain ⟨s1, h1, h2⟩ := h
                    obtain ⟨δ1, hδ1⟩ := stepL args hargs s s1 h1
                    obtain ⟨_, _, hbc2, _⟩ := emitS_ok h2
                    exact ⟨_, by rw [hbc2, hδ1, List.append_assoc]⟩
                  · exact ⟨[], by simp [← Except.ok.injEq _ s' |>.mp h]⟩
    -- main loop at level K+1
    have stepM : ∀ l : List AST, sizeOf l ≤ K + 1 → ∀ s s',
        visitMainStmts l s = .ok s' → ∃ δ, s'.bytecode = s.bytecode ++ δ := by
      intro l hl s s' h
      cases l with
      | nil =>
        rw [visitMainStmts_nil] at h
        exact ⟨[], by simp [← Except.ok.injEq _ s' |>.mp h]⟩
      | cons a rest =>
        have ha : sizeOf a ≤ K := by simp at hl; omega
        have hrest : sizeOf rest ≤ K := by simp at hl; omega
        rw [visitMainStmts_cons] at h
        by_cases hf : isFunctionDef a = true
        · rw [if_pos hf] at h
          exact ihM rest hrest s s' h
        · rw [if_neg hf, exceptBind_ok] at h
          obtain ⟨s1, h1, h2⟩ := h
          obtain ⟨δ1, hδ1⟩ := ihA a ha s s1 h1
          obtain ⟨δ2, hδ2⟩ := ihM rest hrest s1 s' h2
          exact ⟨δ1 ++ δ2, by rw [hδ2, hδ1, List.append_assoc]⟩
    -- function loop at level K+1
    have stepG : ∀ l : List AST, sizeOf l ≤ K + 1 → ∀ s s',
        genFunctions l s = .ok s' → ∃ δ, s'.bytecode = s.bytecode ++ δ := by
      intro l hl s s' h
      cases l with
      | nil =>
        rw [genFunctions_nil] at h
        exact ⟨[], by simp [← Except.ok.injEq _ s' |>.mp h]⟩
      | cons a rest =>
        have hrest : sizeOf rest ≤ K := by simp at hl; omega
        cases hfd : isFunctionDef a with
        | false =>
          rw [genFunctions_cons_other a rest s hfd] at h
          exact ihG rest hrest s s' h
        | true =>
          cases a with
          | functionDef n as b =>
            have hb : sizeOf b ≤ K := by simp at hl; omega
            rw [genFunctions_cons_functionDef, exceptBind_ok] at h
            obtain ⟨s4, h4, h5⟩ := h
            unfold generateFunction at h4
            rw [exceptBind_ok] at h4
            obtain ⟨s1, h1, h4⟩ := h4
            rw [exceptBind_ok] at h4
            obtain ⟨s2, h2, h4⟩ := h4
            rw [exceptBind_ok] at h4
            obtain ⟨s3, h3, h4⟩ := h4
            obtain ⟨hbc1, _⟩ := emitStores_ok as.reverse _ s1 h1
            obtain ⟨δ2, hδ2⟩ := ihL b hb s1 s2 h2
            obtain ⟨_, _, hbc3, _⟩ := emitS_ok h3
            obtain ⟨_, _, hbc4, _⟩ := emitS_ok h4
            obtain ⟨δ5, hδ5⟩ := ihG rest hrest s4 s' h5
            have E1 : ∃ δ, s1.bytecode = s.bytecode ++ δ := ⟨_, hbc1⟩
            exact ext_trans (ext_trans (ext_trans (ext_trans E1 ⟨_, hδ2⟩)
              ⟨_, hbc3⟩) ⟨_, hbc4⟩) ⟨_, hδ5⟩
          | module bb => simp [isFunctionDef] at hfd
          | assignment t v => simp [isFunctionDef] at hfd
          | binaryOp ll op rr => simp [isFunctionDef] at hfd
          | unaryOp op o => simp [isFunctionDef] at hfd
          | compare ll ops cs => simp [isFunctionDef] at hfd
          | boolOp op vs => simp [isFunctionDef] at hfd
          | call f as2 => simp [isFunctionDef] at hfd
          | name i => simp [isFunctionDef] at hfd
          | constant v => simp [isFunctionDef] at hfd
          | ifStmt t b o => simp [isFunctionDef] at hfd
          | forStmt t i b => simp [isFunctionDef] at hfd
          | whileStmt t b => simp [isFunctionDef] at hfd
          | listNode e => simp [isFunctionDef] at hfd
          | expr v => simp [isFunctionDef] at hfd
          | ret v => simp [isFunctionDef] at hfd
    refine ⟨?_, stepC, stepL, stepG, stepM⟩
    intro n hn s s' h
    cases n with
    | module body =>
      have hb : sizeOf body ≤ K := by simp at hn; omega
      rw [visitNode_module, exceptBind_ok] at h
      obtain ⟨s1, h1, h⟩ := h
      rw [exceptBind_ok] at h
      obtain ⟨s2, h2, h⟩ := h
      rw [exceptBind_ok] at h
      obtain ⟨s3, h3, h4⟩ := h
      obtain ⟨_, _, hbc1, _⟩ := emitS_ok h1
      obtain ⟨δ2, hδ2⟩ := ihG body hb s1 s2 h2
      obtain ⟨_, hbc3, _⟩ := patchQ_ok h3
      obtain ⟨δ4, hδ4⟩ := ihM body hb s3 s' h4
      have E1 : ∃ δ, s1.bytecode = s.bytecode ++ δ := ⟨_, hbc1⟩
      obtain ⟨d2, e2⟩ := ext_trans E1 ⟨_, hδ2⟩
      have E3 : ∃ δ, s3.bytecode = s.bytecode ++ δ :=
        ⟨_, by rw [hbc3, e2, patch8_append s.bytecode d2 _ _ (le_refl _)]⟩
      exact ext_trans E3 ⟨_, hδ4⟩
    | assignment t v =>
      have hv : sizeOf v ≤ K := by simp at hn; omega
      rw [visitNode_assignment, exceptBind_ok] at h
      obtain ⟨s1, h1, h2⟩ := h
      obtain ⟨δ1, hδ1⟩ := ihA v hv s s1 h1
      obtain ⟨_, _, hbc2, _⟩ := emitS_ok h2
      exact ⟨_, by rw [hbc2, hδ1, List.append_assoc]⟩
    | expr v =>
      have hv : sizeOf v ≤ K := by simp at hn; omega
      rw [visitNode_expr, exceptBind_ok] at h
      obtain ⟨s1, h1, h2⟩ := h
      obtain ⟨δ1, hδ1⟩ := ihA v hv s s1 h1
      by_cases hc : isCall v = true
      · rw [if_pos hc] at h2
        simp only [Except.ok.injEq] at h2
        exact ⟨δ1, by rw [← h2, hδ1]⟩
      · rw [if_neg hc] at h2
        obtain ⟨_, _, hbc2, _⟩ := emitS_ok h2
        exact ⟨_, by rw [hbc2, hδ1, List.append_assoc]⟩
    | call f args =>
      have hargs : sizeOf args ≤ K := by simp at hn; omega
      rw [visitNode_call] at h
      exact ihC args hargs f s s' h
    | name i =>
      rw [visitNode_name] at h
      obtain ⟨_, _, hbc, _⟩ := emitS_ok h
      exact ⟨_, hbc⟩
    | constant v =>
      rw [visitNode_constant] at h
      exact (visitConstant_ext h).1
    | binaryOp l op r => rw [visitNode_binaryOp] at h; exact absurd h (by simp)
    | unaryOp op o => rw [visitNode_unaryOp] at h; exact absurd h (by simp)
    | compare l ops cs => rw [visitNode_compare] at h; exact absurd h (by simp)
    | boolOp op vs => rw [visitNode_boolOp] at h; exact absurd h (by simp)
    | ifStmt t b o => rw [visitNode_ifStmt] at h; exact absurd h (by simp)
    | forStmt t i b => rw [visitNode_forStmt] at h; exact absurd h (by simp)
    | whileStmt t b => rw [visitNode_whileStmt] at h; exact absurd h (by simp)
    | listNode elts => rw [visitNode_listNode] at h; exact absurd h (by simp)
    | ret v => rw [visitNode_ret] at h; exact absurd h (by simp)
    | functionDef nm aa bb =>
      rw [visitNode_functionDef] at h
      exact absurd h (by simp)

/-- Extension lemma for a single node visit. -/
theorem visitNode_ext {n : AST} {s s' : GenState}
    (h : visitNode n s = .ok s') : ∃ δ, s'.bytecode = s.bytecode ++ δ :=
  (visit_ext_bounded (sizeOf n)).1 n le_rfl s s' h

/-- Extension lemma for a list visit. -/
theorem visitList_ext {l : List AST} {s s' : GenState}
    (h : visitList l s = .ok s') : ∃ δ, s'.bytecode = s.bytecode ++ δ :=
  (visit_ext_bounded (sizeOf l)).2.2.1 l le_rfl s s' h

/-- C9: every successfully generated function body starts with one
STORE instruction per parameter in reverse declaration order and ends
with LOAD_NULL (opcode 38) immediately followed by RET (opcode 27). -/
theorem c9_function_prologue_epilogue (n : String) (params : List String)
    (body : List AST) (s s' : GenState)
    (h : generateFunction n params body s = .ok s') :
    ∃ δ, s'.bytecode =
      s.bytecode ++ (params.reverse.map (fun p => 8 :: encodeStr p)).flatten ++
        δ ++ [38, 27] := by
  unfold generateFunction at h
  rw [exceptBind_ok] at h
  obtain ⟨s1, h1, h⟩ := h
  rw [exceptBind_ok] at h
  obtain ⟨s2, h2, h⟩ := h
  rw [exceptBind_ok] at h
  obtain ⟨s3, h3, h4⟩ := h
  obtain ⟨hbc1, _⟩ := emitStores_ok params.reverse _ s1 h1
  obtain ⟨δ2, hδ2⟩ := visitList_ext h2
  obtain ⟨op3, hop3, hbc3, _⟩ := emitS_ok h3
  obtain ⟨op4, hop4, hbc4, _⟩ := emitS_ok h4
  have h38 : op3 = 38 := by
    rw [show opcodeOfName "LOAD_NULL" = some 38 from rfl] at hop3
    exact (Option.some.injEq _ _).mp hop3.symm
  have h27 : op4 = 27 := by
    rw [show opcodeOfName "RET" = some 27 from rfl] at hop4
    exact (Option.some.injEq _ _).mp hop4.symm
  subst h38 h27
  refine ⟨δ2, ?_⟩
  rw [hbc4, hbc3, hδ2, hbc1]
  simp [List.append_assoc]

/-- Witness for C9: a two-parameter function with an empty body. -/
theorem c9_witness :
    ∃ δ, ([8, 1, 121, 8, 1, 120, 38, 27] : List Nat) =
      [] ++ ((["x", "y"].reverse.map (fun p => 8 :: encodeStr p)).flatten) ++
        δ ++ [38, 27] :=
  c9_function_prologue_epilogue "f" ["x", "y"] [] ⟨[], []⟩
    ⟨[8, 1, 121, 8, 1, 120, 38, 27], [("f", 0)]⟩
    (by simp +decide [generateFunction, emitStores, emitS, opcodeOfName,
      encodeArg, encodeStr, strBytes, utf8Bytes, visitList, exceptOk_bind])

/-! Decoder lemmas: unfolding and inversion principles for
`operandLen` and `scanFrom`. -/

/-- Unfolding of `operandLen` on a readable opcode byte. -/
theorem operandLen_eq (bc : List Nat) (p : Nat) (b : Nat)
    (hb : bc[p]? = some b) :
    operandLen bc p =
      if b ∈ opnd8 then some 8
      else if b ∈ opndStr then (bc[p + 1]?).map (fun n => 1 + n)
      else if b ∈ opnd1 then some 1
      else if b ∈ opnd0 then some 0
      else Option.none := by
  unfold operandLen
  rw [hb]

/-- `operandLen` fails past the end of the stream. -/
theorem operandLen_none (bc : List Nat) (p : Nat)
    (hb : bc[p]? = Option.none) : operandLen bc p = Option.none := by
  unfold operandLen
  rw [hb]

/-- `operandLen` only depends on the bytes at `p` and `p + 1`. -/
theorem operandLen_congr (l1 l2 : List Nat) (p : Nat)
    (h0 : l1[p]? = l2[p]?) (h1 : l1[p + 1]? = l2[p + 1]?) :
    operandLen l1 p = operandLen l2 p := by
  unfold operandLen
  rw [h0, h1]

/-- An 8-byte-operand opcode always decodes to operand length 8. -/
theorem operandLen_opnd8 (bc : List Nat) (p b : Nat) (hb : bc[p]? = some b)
    (h8 : b ∈ opnd8) : operandLen bc p = some 8 := by
  rw [operandLen_eq bc p b hb, if_pos h8]

/-- A successful `operandLen` is preserved by appending bytes. -/
theorem operandLen_append (bc δ : List Nat) (p k : Nat)
    (h : operandLen bc p = some k) : operandLen (bc ++ δ) p = some k := by
  cases hb : bc[p]? with
  | none => rw [operandLen_none bc p hb] at h; exact absurd h (by simp)
  | some b =>
    have hp : p < bc.length := (List.getElem?_eq_some.mp hb).1
    rw [operandLen_eq bc p b hb] at h
    rw [operandLen_eq (bc ++ δ) p b
      (by rw [List.getElem?_append_left hp]; exact hb)]
    by_cases h8 : b ∈ opnd8
    · rw [if_pos h8] at h; rw [if_pos h8]; exact h
    · rw [if_neg h8] at h; rw [if_neg h8]
      by_cases hs : b ∈ opndStr
      · rw [if_pos hs] at h; rw [if_pos hs]
        cases hb1 : bc[p + 1]? with
        | none => rw [hb1] at h; exact absurd h (by simp)
        | some n =>
          have hp1 : p + 1 < bc.length := (List.getElem?_eq_some.mp hb1).1
          rw [hb1] at h
          rw [List.getElem?_append_left hp1, hb1]
          exact h
      · rw [if_neg hs] at h; rw [if_neg hs]; exact h

/-- `operandLen` of an appended region, read from its own origin. -/
theorem operandLen_shift (bc δ : List Nat) (q : Nat) :
    operandLen (bc ++ δ) (bc.length + q) = operandLen δ q := by
  have h0 : (bc ++ δ)[bc.length + q]? = δ[q]? := by
    rw [List.getElem?_append_right (by omega)]
    congr 1
    omega
  have h1 : (bc ++ δ)[bc.length + q + 1]? = δ[q + 1]? := by
    rw [List.getElem?_append_right (by omega)]
    congr 1
    omega
  cases hb : δ[q]? with
  | none => rw [operandLen_none _ _ (h0.trans hb), operandLen_none _ _ hb]
  | some b =>
    rw [operandLen_eq _ _ b (h0.trans hb), operandLen_eq _ _ b hb, h1]

/-- Unfolding of `scanFrom` inside the stream. -/
theorem scanFrom_lt (bc : List Nat) (p : Nat) (hp : p < bc.length) :
    scanFrom bc p =
      match operandLen bc p with
      | some k => (scanFrom bc (p + 1 + k)).map (fun L => p :: L)
      | Option.none => Option.none := by
  rw [scanFrom.eq_def, dif_pos hp]

/-- Unfolding of `scanFrom` at or past the end of the stream. -/
theorem scanFrom_ge (bc : List Nat) (p : Nat) (hp : ¬ p < bc.length) :
    scanFrom bc p = if p = bc.length then some [] else Option.none := by
  rw [scanFrom.eq_def, dif_neg hp]

/-- One decoding step of `scanFrom`. -/
theorem scanFrom_step (bc : List Nat) (p k : Nat) (hp : p < bc.length)
    (hk : operandLen bc p = some k) :
    scanFrom bc p = (scanFrom bc (p + 1 + k)).map (fun L => p :: L) := by
  rw [scanFrom_lt bc p hp, hk]

/-- `scanFrom` fails on an undecodable opcode. -/
theorem scanFrom_step_none (bc : List Nat) (p : Nat) (hp : p < bc.length)
    (hk : operandLen bc p = Option.none) : scanFrom bc p = Option.none := by
  rw [scanFrom_lt bc p hp, hk]

/-- The scan of the empty tail. -/
theorem scanFrom_stop (bc : List Nat) : scanFrom bc bc.length = some [] := by
  rw [scanFrom.eq_def, dif_neg (by omega), if_pos rfl]

/-- A stream holding exactly one instruction scans to the start 0. -/
theorem scanFrom_single (δ : List Nat) (k : Nat)
    (hop : operandLen δ 0 = some k) (hlen : δ.length = 1 + k) :
    scanFrom δ 0 = some [0] := by
  have h1 : scanFrom δ (0 + 1 + k) = some [] := by
    have e : 0 + 1 + k = δ.length := by omega
    rw [e]
    exact scanFrom_stop δ
  rw [scanFrom_step δ 0 k (by omega) hop, h1]
  rfl

/-- A successful scan starts at or before the end of the stream. -/
theorem scan_pos_le (bc : List Nat) (p : Nat) (L : List Nat)
    (h : scanFrom bc p = some L) : p ≤ bc.length := by
  rw [scanFrom.eq_def] at h
  split at h
  · omega
  · split at h
    · omega
    · exact absurd h (by simp)

/-- Inversion of a successful scan step inside the stream. -/
theorem scan_cons_inv (bc : List Nat) (p : Nat) (L : List Nat)
    (hp : p < bc.length) (h : scanFrom bc p = some L) :
    ∃ k L2, operandLen bc p = some k ∧
      scanFrom bc (p + 1 + k) = some L2 ∧ L = p :: L2 := by
  cases hk : operandLen bc p with
  | none => rw [scanFrom_step_none bc p hp hk] at h; exact absurd h (by simp)
  | some k =>
    rw [scanFrom_step bc p k hp hk] at h
    cases hs : scanFrom bc (p + 1 + k) with
    | none => rw [hs] at h; exact absurd h (by simp)
    | some L2 =>
      rw [hs] at h
      exact ⟨k, L2, by simp [hk], by simp [hs], (Option.some.inj h).symm⟩

/-- Inversion of a successful scan at or past the end. -/
theorem scan_end_inv (bc : List Nat) (p : Nat) (L : List Nat)
    (hp : ¬ p < bc.length) (h : scanFrom bc p = some L) :
    p = bc.length ∧ L = [] := by
  rw [scanFrom_ge bc p hp] at h
  by_cases he : p = bc.length
  · rw [if_pos he] at h
    exact ⟨he, (Option.some.inj h).symm⟩
  · rw [if_neg he] at h
    exact absurd h (by simp)

/-- The scan of a nonempty stream from 0 holds the start 0. -/
theorem scan_zero_cons (δ : List Nat) (L : List Nat) (hne : δ ≠ [])
    (h : scanFrom δ 0 = some L) : ∃ L2, L = 0 :: L2 := by
  have h0 : 0 < δ.length := List.length_pos.mpr hne
  obtain ⟨k, L2, _, _, hL⟩ := scan_cons_inv δ 0 L h0 h
  exact ⟨L2, hL⟩

/-- Scan members lie between the origin and the end of the stream. -/
theorem scan_mem_bounds_fuel :
    ∀ N : Nat, ∀ (bc : List Nat) (p : Nat) (L : List Nat),
      bc.length - p ≤ N → scanFrom bc p = some L →
      ∀ i ∈ L, p ≤ i ∧ i < bc.length := by
  intro N
  induction N with
  | zero =>
    intro bc p L hN h i hi
    obtain ⟨_, rfl⟩ := scan_end_inv bc p L (by omega) h
    simp at hi
  | succ N ih =>
    intro bc p L hN h i hi
    by_cases hp : p < bc.length
    · obtain ⟨k, L2, _, hs, rfl⟩ := scan_cons_inv bc p L hp h
      rcases List.mem_cons.mp hi with rfl | hi2
      · exact ⟨le_refl _, hp⟩
      · have := ih bc (p + 1 + k) L2 (by omega) hs i hi2
        exact ⟨by omega, this.2⟩
    · obtain ⟨_, rfl⟩ := scan_end_inv bc p L hp h
      simp at hi

/-- Wrapper for `scan_mem_bounds_fuel` at the natural fuel. -/
theorem scan_mem_bounds (bc : List Nat) (p : Nat) (L : List Nat)
    (h : scanFrom bc p = some L) : ∀ i ∈ L, p ≤ i ∧ i < bc.length :=
  scan_mem_bounds_fuel (bc.length - p) bc p L le_rfl h

/-- Two scan members in order are separated by the full extent of the
earlier instruction. -/
theorem scan_chain_fuel :
    ∀ N : Nat, ∀ (bc : List Nat) (p : Nat) (L : List Nat),
      bc.length - p ≤ N → scanFrom bc p = some L →
      ∀ i ∈ L, ∀ j ∈ L, i < j → ∀ k, operandLen bc i = some k →
        i + 1 + k ≤ j := by
  intro N
  induction N with
  | zero =>
    intro bc p L hN h i hi
    obtain ⟨_, rfl⟩ := scan_end_inv bc p L (by omega) h
    simp at hi
  | succ N ih =>
    intro bc p L hN h i hi j hj hij k hk
    by_cases hp : p < bc.length
    · obtain ⟨k0, L2, hk0, hs, rfl⟩ := scan_cons_inv bc p L hp h
      rcases List.mem_cons.mp hi with rfl | hi2
      · have hkk : k = k0 := Option.some.inj (hk.symm.trans hk0)
        subst hkk
        rcases List.mem_cons.mp hj with rfl | hj2
        · omega
        · have := scan_mem_bounds bc (i + 1 + k) L2 hs j hj2
          omega
      · rcases List.mem_cons.mp hj with rfl | hj2
        · have := scan_mem_bounds bc (j + 1 + k0) L2 hs i hi2
          omega
        · exact ih bc (p + 1 + k0) L2 (by omega) hs i hi2 j hj2 hij k hk
    · obtain ⟨_, rfl⟩ := scan_end_inv bc p L hp h
      simp at hi

/-- Wrapper for `scan_chain_fuel` at the natural fuel. -/
theorem scan_chain (bc : List Nat) (p : Nat) (L : List Nat)
    (h : scanFrom bc p = some L) :
    ∀ i ∈ L, ∀ j ∈ L, i < j → ∀ k, operandLen bc i = some k →
      i + 1 + k ≤ j :=
  scan_chain_fuel (bc.length - p) bc p L le_rfl h

/-- An 8-byte-operand instruction found by the scan fits entirely
inside the stream. -/
theorem scan_room_fuel :
    ∀ N : Nat, ∀ (bc : List Nat) (p : Nat) (L : List Nat),
      bc.length - p ≤ N → scanFrom bc p = some L →
      ∀ i ∈ L, ∀ b, bc[i]? = some b → b ∈ opnd8 → i + 9 ≤ bc.length := by
  intro N
  induction N with
  | zero =>
    intro bc p L hN h i hi
    obtain ⟨_, rfl⟩ := scan_end_inv bc p L (by omega) h
    simp at hi
  | succ N ih =>
    intro bc p L hN h i hi b hb h8
    by_cases hp : p < bc.length
    · obtain ⟨k, L2, hk, hs, rfl⟩ := scan_cons_inv bc p L hp h
      rcases List.mem_cons.mp hi with rfl | hi2
      · have hkk : k = 8 :=
          Option.some.inj (hk.symm.trans (operandLen_opnd8 bc i b hb h8))
        subst hkk
        have := scan_pos_le bc (i + 1 + 8) L2 hs
        omega
      · exact ih bc (p + 1 + k) L2 (by omega) hs i hi2 b hb h8
    · obtain ⟨_, rfl⟩ := scan_end_inv bc p L hp h
      simp at hi

/-- Wrapper for `scan_room_fuel` at the natural fuel. -/
theorem scan_room (bc : List Nat) (p : Nat) (L : List Nat)
    (h : scanFrom bc p = some L) :
    ∀ i ∈ L, ∀ b, bc[i]? = some b → b ∈ opnd8 → i + 9 ≤ bc.length :=
  scan_room_fuel (bc.length - p) bc p L le_rfl h

/-- Scanning an appended region from its own origin is the shifted
scan of that region. -/
theorem scanFrom_shift_fuel :
    ∀ N : Nat, ∀ (bc δ : List Nat) (q : Nat), δ.length - q ≤ N →
      scanFrom (bc ++ δ) (bc.length + q) =
        (scanFrom δ q).map (List.map (fun r => bc.length + r)) := by
  intro N
  induction N with
  | zero =>
    intro bc δ q hN
    have hq : ¬ q < δ.length := by omega
    rw [scanFrom_ge δ q hq,
      scanFrom_ge (bc ++ δ) (bc.length + q) (by simp; omega)]
    by_cases he : q = δ.length
    · rw [if_pos he, if_pos (by simp [he])]
      rfl
    · rw [if_neg he, if_neg (by simp; omega)]
      rfl
  | succ N ih =>
    intro bc δ q hN
    by_cases hq : q < δ.length
    · cases hk : operandLen δ q with
      | none =>
        rw [scanFrom_step_none δ q hq hk,
          scanFrom_step_none (bc ++ δ) (bc.length + q) (by simp; omega)
            ((operandLen_shift bc δ q).trans hk)]
        rfl
      | some k =>
        rw [scanFrom_step δ q k hq hk,
          scanFrom_step (bc ++ δ) (bc.length + q) k (by simp; omega)
            ((operandLen_shift bc δ q).trans hk)]
        have e : bc.length + q + 1 + k = bc.length + (q + 1 + k) := by omega
        rw [e, ih bc δ (q + 1 + k) (by omega)]
        cases scanFrom δ (q + 1 + k) <;> simp
    · rw [scanFrom_ge δ q hq,
        scanFrom_ge (bc ++ δ) (bc.length + q) (by simp; omega)]
      by_cases he : q = δ.length
      · rw [if_pos he, if_pos (by simp [he])]
        rfl
      · rw [if_neg he, if_neg (by simp; omega)]
        rfl

/-- Wrapper for `scanFrom_shift_fuel` at the natural fuel. -/
theorem scanFrom_shift (bc δ : List Nat) (q : Nat) :
    scanFrom (bc ++ δ) (bc.length + q) =
      (scanFrom δ q).map (List.map (fun r => bc.length + r)) :=
  scanFrom_shift_fuel (δ.length - q) bc δ q le_rfl

/-- A scan of a prefix continues through appended instructions. -/
theorem scanFrom_append_fuel :
    ∀ N : Nat, ∀ (bc δ : List Nat) (p : Nat) (L1 L2 : List Nat),
      bc.length - p ≤ N → scanFrom bc p = some L1 → scanFrom δ 0 = some L2 →
      scanFrom (bc ++ δ) p =
        some (L1 ++ L2.map (fun r => bc.length + r)) := by
  intro N
  induction N with
  | zero =>
    intro bc δ p L1 L2 hN h1 h2
    obtain ⟨he, rfl⟩ := scan_end_inv bc p L1 (by omega) h1
    subst he
    have hs := scanFrom_shift bc δ 0
    rw [Nat.add_zero] at hs
    rw [hs, h2]
    rfl
  | succ N ih =>
    intro bc δ p L1 L2 hN h1 h2
    by_cases hp : p < bc.length
    · obtain ⟨k, L12, hk, hs1, rfl⟩ := scan_cons_inv bc p L1 hp h1
      rw [scanFrom_step (bc ++ δ) p k (by simp; omega)
          (operandLen_append bc δ p k hk),
        ih bc δ (p + 1 + k) L12 L2 (by omega) hs1 h2]
      rfl
    · obtain ⟨he, rfl⟩ := scan_end_inv bc p L1 hp h1
      subst he
      have hs := scanFrom_shift bc δ 0
      rw [Nat.add_zero] at hs
      rw [hs, h2]
      rfl

/-- Wrapper for `scanFrom_append_fuel` at the natural fuel. -/
theorem scanFrom_append (bc δ : List Nat) (p : Nat) (L1 L2 : List Nat)
    (h1 : scanFrom bc p = some L1) (h2 : scanFrom δ 0 = some L2) :
    scanFrom (bc ++ δ) p = some (L1 ++ L2.map (fun r => bc.length + r)) :=
  scanFrom_append_fuel (bc.length - p) bc δ p L1 L2 le_rfl h1 h2

/-- Decomposition of a successful scan of an appended stream along a
successful scan of its prefix. -/
theorem scan_append_inv_fuel :
    ∀ N : Nat, ∀ (bc δ : List Nat) (p : Nat) (L1 L : List Nat),
      bc.length - p ≤ N → scanFrom bc p = some L1 →
      scanFrom (bc ++ δ) p = some L →
      ∃ L2, scanFrom δ 0 = some L2 ∧
        L = L1 ++ L2.map (fun r => bc.length + r) := by
  intro N
  induction N with
  | zero =>
    intro bc δ p L1 L hN h1 h
    obtain ⟨he, rfl⟩ := scan_end_inv bc p L1 (by omega) h1
    subst he
    have hs := scanFrom_shift bc δ 0
    rw [Nat.add_zero] at hs
    rw [hs] at h
    cases h2 : scanFrom δ 0 with
    | none => rw [h2] at h; exact absurd h (by simp)
    | some L2 =>
      rw [h2] at h
      refine ⟨L2, rfl, ?_⟩
      rw [← Option.some.inj h]
      rfl
  | succ N ih =>
    intro bc δ p L1 L hN h1 h
    by_cases hp : p < bc.length
    · obtain ⟨k, L12, hk, hs1, rfl⟩ := scan_cons_inv bc p L1 hp h1
      rw [scanFrom_step (bc ++ δ) p k (by simp; omega)
          (operandLen_append bc δ p k hk)] at h
      cases hs : scanFrom (bc ++ δ) (p + 1 + k) with
      | none => rw [hs] at h; exact absurd h (by simp)
      | some M =>
        rw [hs] at h
        obtain ⟨L2, h2, hM⟩ := ih bc δ (p + 1 + k) L12 M (by omega) hs1 hs
        refine ⟨L2, h2, ?_⟩
        rw [← Option.some.inj h, hM]
        rfl
    · obtain ⟨he, rfl⟩ := scan_end_inv bc p L1 hp h1
      subst he
      have hs := scanFrom_shift bc δ 0
      rw [Nat.add_zero] at hs
      rw [hs] at h
      cases h2 : scanFrom δ 0 with
      | none => rw [h2] at h; exact absurd h (by simp)
      | some L2 =>
        rw [h2] at h
        refine ⟨L2, rfl, ?_⟩
        rw [← Option.some.inj h]
        rfl

/-- Wrapper for `scan_append_inv_fuel` at the natural fuel. -/
theorem scan_append_inv (bc δ : List Nat) (p : Nat) (L1 L : List Nat)
    (h1 : scanFrom bc p = some L1) (h : scanFrom (bc ++ δ) p = some L) :
    ∃ L2, scanFrom δ 0 = some L2 ∧
      L = L1 ++ L2.map (fun r => bc.length + r) :=
  scan_append_inv_fuel (bc.length - p) bc δ p L1 L le_rfl h1 h

/-- Scanning only depends on the bytes from the origin on, for
streams of equal length. -/
theorem scanFrom_congr_fuel :
    ∀ N : Nat, ∀ (l1 l2 : List Nat) (p : Nat),
      l1.length = l2.length → (∀ j, p ≤ j → l1[j]? = l2[j]?) →
      l1.length - p ≤ N → scanFrom l1 p = scanFrom l2 p := by
  intro N
  induction N with
  | zero =>
    intro l1 l2 p hlen hag hN
    rw [scanFrom_ge l1 p (by omega), scanFrom_ge l2 p (by omega), hlen]
  | succ N ih =>
    intro l1 l2 p hlen hag hN
    by_cases hp : p < l1.length
    · have holc : operandLen l1 p = operandLen l2 p :=
        operandLen_congr l1 l2 p (hag p (le_refl p)) (hag (p + 1) (by omega))
      cases hk : operandLen l2 p with
      | none =>
        rw [scanFrom_step_none l1 p hp (holc.trans hk),
          scanFrom_step_none l2 p (by omega) hk]
      | some k =>
        rw [scanFrom_step l1 p k hp (holc.trans hk),
          scanFrom_step l2 p k (by omega) hk,
          ih l1 l2 (p + 1 + k) hlen (fun j hj => hag j (by omega)) (by omega)]
    · rw [scanFrom_ge l1 p hp, scanFrom_ge l2 p (by omega), hlen]

/-- Wrapper for `scanFrom_congr_fuel` at the natural fuel. -/
theorem scanFrom_congr (l1 l2 : List Nat) (p : Nat)
    (hlen : l1.length = l2.length) (hag : ∀ j, p ≤ j → l1[j]? = l2[j]?) :
    scanFrom l1 p = scanFrom l2 p :=
  scanFrom_congr_fuel (l1.length - p) l1 l2 p hlen hag le_rfl

/-! Byte-level lemmas about `patch8` and `readBE8`. -/

/-- `be8` always renders eight bytes. -/
theorem be8_length (v : Nat) : (be8 v).length = 8 := rfl

/-- In-range patching preserves the stream length. -/
theorem patch8_length (bc : List Nat) (pos v : Nat)
    (h : pos + 9 ≤ bc.length) : (patch8 bc pos v).length = bc.length := by
  simp only [patch8, List.length_append, List.length_take, List.length_drop,
    be8_length]
  omega

/-- Patching does not touch the bytes up to and including the opcode. -/
theorem patch8_getElem_le (bc : List Nat) (pos v j : Nat)
    (hroom : pos + 9 ≤ bc.length) (hj : j ≤ pos) :
    (patch8 bc pos v)[j]? = bc[j]? := by
  unfold patch8
  rw [List.getElem?_append_left
      (by simp [List.length_take, be8_length]; omega),
    List.getElem?_append_left (by simp [List.length_take]; omega)]
  simp [List.getElem?_take, show j < pos + 1 by omega]

/-- Patching does not touch the bytes after the operand field. -/
theorem patch8_getElem_ge (bc : List Nat) (pos v j : Nat)
    (hroom : pos + 9 ≤ bc.length) (hj : pos + 9 ≤ j) :
    (patch8 bc pos v)[j]? = bc[j]? := by
  unfold patch8
  rw [List.getElem?_append_right
    (by simp [List.length_take, be8_length]; omega)]
  rw [List.getElem?_drop]
  congr 1
  simp [List.length_take, be8_length]
  omega

/-- `readBE8` only depends on the eight bytes it reads. -/
theorem readBE8_congr (l1 l2 : List Nat) (i : Nat)
    (h : ∀ j, i ≤ j → j < i + 8 → l1[j]? = l2[j]?) :
    readBE8 l1 i = readBE8 l2 i := by
  unfold readBE8
  rw [h i (by omega) (by omega), h (i + 1) (by omega) (by omega),
    h (i + 2) (by omega) (by omega), h (i + 3) (by omega) (by omega),
    h (i + 4) (by omega) (by omega), h (i + 5) (by omega) (by omega),
    h (i + 6) (by omega) (by omega), h (i + 7) (by omega) (by omega)]

/-- `readBE8` ignores appended bytes when it reads inside the prefix. -/
theorem readBE8_append_left (bc δ : List Nat) (i : Nat)
    (h : i + 8 ≤ bc.length) : readBE8 (bc ++ δ) i = readBE8 bc i :=
  readBE8_congr _ _ i (fun j _ hj2 => List.getElem?_append_left (by omega))

/-- Reading back an operand field written with `be8`. -/
theorem readBE8_at_append (bc0 rest : List Nat) (w : Nat)
    (hw : w < 2 ^ 64) :
    readBE8 (bc0 ++ (be8 w ++ rest)) bc0.length = w := by
  have g : ∀ j, (bc0 ++ (be8 w ++ rest))[bc0.length + j]? =
      (be8 w ++ rest)[j]? := by
    intro j
    rw [List.getElem?_append_right (by omega)]
    congr 1
    omega
  have g0 : (bc0 ++ (be8 w ++ rest))[bc0.length]? =
      some (w / 2 ^ 56 % 256) := by
    have := g 0
    rw [Nat.add_zero] at this
    rw [this]
    simp [be8]
  have g1 : (bc0 ++ (be8 w ++ rest))[bc0.length + 1]? =
      some (w / 2 ^ 48 % 256) := by rw [g 1]; simp [be8]
  have g2 : (bc0 ++ (be8 w ++ rest))[bc0.length + 2]? =
      some (w / 2 ^ 40 % 256) := by rw [g 2]; simp [be8]
  have g3 : (bc0 ++ (be8 w ++ rest))[bc0.length + 3]? =
      some (w / 2 ^ 32 % 256) := by rw [g 3]; simp [be8]
  have g4 : (bc0 ++ (be8 w ++ rest))[bc0.length + 4]? =
      some (w / 2 ^ 24 % 256) := by rw [g 4]; simp [be8]
  have g5 : (bc0 ++ (be8 w ++ rest))[bc0.length + 5]? =
      some (w / 2 ^ 16 % 256) := by rw [g 5]; simp [be8]
  have g6 : (bc0 ++ (be8 w ++ rest))[bc0.length + 6]? =
      some (w / 2 ^ 8 % 256) := by rw [g 6]; simp [be8]
  have g7 : (bc0 ++ (be8 w ++ rest))[bc0.length + 7]? =
      some (w % 256) := by rw [g 7]; simp [be8]
  unfold readBE8
  rw [g0, g1, g2, g3, g4, g5, g6, g7]
  simp only [Option.getD_some]
  omega

/-- In-place patching keeps the scan unchanged when the patch lands
in the operand field of an 8-byte-operand instruction at a decoded
start. -/
theorem scanFrom_patch_fuel :
    ∀ N : Nat, ∀ (bc : List Nat) (v pos p : Nat) (L : List Nat) (b : Nat),
      bc.length - p ≤ N → scanFrom bc p = some L → pos ∈ L →
      bc[pos]? = some b → b ∈ opnd8 →
      scanFrom (patch8 bc pos v) p = some L := by
  intro N
  induction N with
  | zero =>
    intro bc v pos p L b hN h hpos hb h8
    obtain ⟨_, rfl⟩ := scan_end_inv bc p L (by omega) h
    simp at hpos
  | succ N ih =>
    intro bc v pos p L b hN h hpos hb h8
    by_cases hp : p < bc.length
    · obtain ⟨k, L2, hk, hs, rfl⟩ := scan_cons_inv bc p L hp h
      have hroom : pos + 9 ≤ bc.length :=
        scan_room bc p _ h pos hpos b hb h8
      have hlenp : (patch8 bc pos v).length = bc.length :=
        patch8_length bc pos v hroom
      rcases List.mem_cons.mp hpos with rfl | hpos2
      · have hk8 : k = 8 :=
          Option.some.inj (hk.symm.trans (operandLen_opnd8 bc pos b hb h8))
        subst hk8
        have hop2 : operandLen (patch8 bc pos v) pos = some 8 :=
          operandLen_opnd8 (patch8 bc pos v) pos b
            (by rw [patch8_getElem_le bc pos v pos hroom (le_refl pos)]
                exact hb) h8
        rw [scanFrom_step (patch8 bc pos v) pos 8 (by omega) hop2]
        have hcongr : scanFrom (patch8 bc pos v) (pos + 1 + 8) =
            scanFrom bc (pos + 1 + 8) :=
          scanFrom_congr _ _ _ hlenp
            (fun j hj => patch8_getElem_ge bc pos v j hroom (by omega))
        rw [hcongr, hs]
        rfl
      · have hge : p + 1 + k ≤ pos :=
          (scan_mem_bounds bc (p + 1 + k) L2 hs pos hpos2).1
        have hop2 : operandLen (patch8 bc pos v) p = some k := by
          rw [operandLen_congr (patch8 bc pos v) bc p
            (patch8_getElem_le bc pos v p hroom (by omega))
            (patch8_getElem_le bc pos v (p + 1) hroom (by omega))]
          exact hk
        rw [scanFrom_step (patch8 bc pos v) p k (by omega) hop2,
          ih bc v pos (p + 1 + k) L2 b (by omega) hs hpos2 hb h8]
        rfl
    · obtain ⟨_, rfl⟩ := scan_end_inv bc p L hp h
      simp at hpos

/-- Wrapper for `scanFrom_patch_fuel` at the natural fuel. -/
theorem scanFrom_patch (bc : List Nat) (v pos : Nat) (L : List Nat) (b : Nat)
    (hL : scanFrom bc 0 = some L) (hpos : pos ∈ L) (hb : bc[pos]? = some b)
    (h8 : b ∈ opnd8) : scanFrom (patch8 bc pos v) 0 = some L :=
  scanFrom_patch_fuel (bc.length - 0) bc v pos 0 L b le_rfl hL hpos hb h8

/-! Preservation of the generator invariant `Inv` by the emission
primitives. -/

/-- Every jump opcode carries an 8-byte operand. -/
theorem jumpOps_sub_opnd8 (b : Nat) (h : b ∈ jumpOps) : b ∈ opnd8 := by
  have h2 : b ∈ [23, 24, 25, 26] := h
  fin_cases h2 <;> decide

/-- Length of an integer immediate. -/
theorem encodeInt_length (i : Int) : (encodeInt i).length = 8 := rfl

/-- Length of a float immediate. -/
theorem floatBytes_length (q : Rat) : (floatBytes q).length = 8 := rfl

/-- The integer immediate of a natural number is its 8-byte rendering
reduced modulo 2^64. -/
theorem encodeInt_natCast (a : Nat) :
    encodeInt (a : Int) = be8 (a % 2 ^ 64) := rfl

/-- An operandless instruction scans as one instruction. -/
theorem scan_emit0 (op : Nat) (hop : op ∈ opnd0) :
    scanFrom [op] 0 = some [0] := by
  refine scanFrom_single [op] 0 ?_ rfl
  have hop2 : op ∈ [1, 4, 5, 7, 9, 10, 11, 12, 13, 14, 15, 16, 17, 18, 19,
    20, 21, 22, 27, 29, 30, 31, 32, 33, 34, 35, 36, 37, 38, 39] := hop
  fin_cases hop2 <;> decide

/-- A string-operand instruction scans as one instruction. -/
theorem scan_emit_str (op : Nat) (t : String) (hop : op ∈ opndStr) :
    scanFrom (op :: encodeStr t) 0 = some [0] := by
  refine scanFrom_single (op :: encodeStr t) (1 + (strBytes t).length) ?_ ?_
  · have h8 : op ∉ opnd8 := by
      have hop2 : op ∈ [2, 6, 8] := hop
      fin_cases hop2 <;> decide
    rw [operandLen_eq (op :: encodeStr t) 0 op List.getElem?_cons_zero,
      if_neg h8, if_pos hop]
    simp [encodeStr]
  · simp [encodeStr]
    omega

/-- An 8-byte-operand instruction scans as one instruction. -/
theorem scan_emit8 (op : Nat) (bs : List Nat) (hop : op ∈ opnd8)
    (hbs : bs.length = 8) : scanFrom (op :: bs) 0 = some [0] := by
  refine scanFrom_single (op :: bs) 8 ?_ (by simp [hbs])
  rw [operandLen_eq (op :: bs) 0 op List.getElem?_cons_zero, if_pos hop]

/-- A found address is paired with some name in the table. -/
theorem lookupFA_mem :
    ∀ (fa : List (String × Nat)) (f : String) (addr : Nat),
      lookupFA fa f = some addr → ∃ nm, (nm, addr) ∈ fa := by
  intro fa
  induction fa with
  | nil => intro f addr h; simp [lookupFA] at h
  | cons pr rest ih =>
    intro f addr h
    obtain ⟨k, v⟩ := pr
    simp only [lookupFA] at h
    by_cases hk : k = f
    · rw [if_pos hk] at h
      exact ⟨k, by simp [← Option.some.inj h]⟩
    · rw [if_neg hk] at h
      obtain ⟨nm, hm⟩ := ih f addr h
      exact ⟨nm, List.mem_cons_of_mem _ hm⟩

/-- A valid target of a stream stays valid after appending bytes. -/
theorem target_mono (bc δ : List Nat) (t : Nat) (L L2 : List Nat)
    (hL : scanFrom bc 0 = some L) (hL2 : scanFrom (bc ++ δ) 0 = some L2)
    (ht : t ∈ L ∨ t = bc.length) : t ∈ L2 ∨ t = (bc ++ δ).length := by
  obtain ⟨Lδ, hδ, rfl⟩ := scan_append_inv bc δ 0 L L2 hL hL2
  rcases ht with h | h
  · exact Or.inl (List.mem_append_left _ h)
  · by_cases hδe : δ = []
    · subst hδe
      right
      simp [h]
    · obtain ⟨Lδ2, rfl⟩ := scan_zero_cons δ Lδ hδe hδ
      left
      refine List.mem_append_right _ ?_
      simp [h]

/-- Appending a block of scan-clean instructions holding no jump
opcode preserves the invariant. -/
theorem Inv_extend (s s2 : GenState) (δ Lδ : List Nat)
    (hInv : Inv s)
    (hbc : s2.bytecode = s.bytecode ++ δ)
    (hfa : s2.functionAddresses = s.functionAddresses)
    (hscan : scanFrom δ 0 = some Lδ)
    (hnew : ∀ q ∈ Lδ, ∀ b, δ[q]? = some b → b ∈ jumpOps → False) :
    Inv s2 := by
  obtain ⟨L, hL, hAddr, hJmp⟩ := hInv
  have hL2 : scanFrom (s.bytecode ++ δ) 0 =
      some (L ++ Lδ.map (fun r => s.bytecode.length + r)) :=
    scanFrom_append s.bytecode δ 0 L Lδ hL hscan
  refine ⟨L ++ Lδ.map (fun r => s.bytecode.length + r), by rw [hbc]; exact hL2,
    ?_, ?_⟩
  · intro pr hpr
    rw [hfa] at hpr
    have hmono := target_mono s.bytecode δ pr.2 L _ hL hL2 (hAddr pr hpr)
    rw [hbc]
    exact hmono
  · intro i hi b hb hbj
    rcases List.mem_append.mp hi with hiL | hiR
    · have hbounds := scan_mem_bounds s.bytecode 0 L hL i hiL
      have hbold : s.bytecode[i]? = some b := by
        rw [hbc, List.getElem?_append_left hbounds.2] at hb
        exact hb
      have hroom : i + 9 ≤ s.bytecode.length :=
        scan_room s.bytecode 0 L hL i hiL b hbold (jumpOps_sub_opnd8 b hbj)
      obtain ⟨t, hr, hT⟩ := hJmp i hiL b hbold hbj
      refine ⟨t, ?_, ?_⟩
      · rw [hbc, readBE8_append_left s.bytecode δ (i + 1) (by omega)]
        exact hr
      · have hmono := target_mono s.bytecode δ t L _ hL hL2 hT
        rw [hbc]
        exact hmono
    · obtain ⟨q, hq, rfl⟩ := List.mem_map.mp hiR
      have hbnew : δ[q]? = some b := by
        rw [hbc, List.getElem?_append_right (by omega)] at hb
        rw [← hb]
        congr 1
        omega
      exact (hnew q hq b hbnew hbj).elim

/-- Emitting one non-jump instruction preserves the invariant. -/
theorem Inv_emit_nonjump (name : String) (args : List EmitArg)
    (s s2 : GenState) (h : emitS name args s = .ok s2) (hInv : Inv s)
    (hscan : ∀ op, opcodeOfName name = some op →
      scanFrom (op :: (args.map encodeArg).flatten) 0 = some [0] ∧
        op ∉ jumpOps) :
    Inv s2 := by
  obtain ⟨op, hop, hbc, hfa⟩ := emitS_ok h
  obtain ⟨hsc, hnj⟩ := hscan op hop
  refine Inv_extend s s2 _ [0] hInv hbc hfa hsc ?_
  intro q hq b hb hbj
  simp at hq
  subst hq
  rw [List.getElem?_cons_zero] at hb
  apply hnj
  rw [Option.some.inj hb]
  exact hbj

/-- Emitting an operandless instruction preserves the invariant. -/
theorem Inv_emit0 (name : String) (op : Nat) (s s2 : GenState)
    (h : emitS name [] s = .ok s2) (hInv : Inv s)
    (hop : opcodeOfName name = some op) (hops : op ∈ opnd0) : Inv s2 := by
  apply Inv_emit_nonjump name _ s s2 h hInv
  intro op2 hop2
  have he : op2 = op := Option.some.inj (hop2.symm.trans hop)
  subst he
  refine ⟨by simpa using scan_emit0 op2 hops, ?_⟩
  have h2 : op2 ∈ [1, 4, 5, 7, 9, 10, 11, 12, 13, 14, 15, 16, 17, 18, 19,
    20, 21, 22, 27, 29, 30, 31, 32, 33, 34, 35, 36, 37, 38, 39] := hops
  fin_cases h2 <;> decide

/-- Emitting a string-operand instruction preserves the invariant. -/
theorem Inv_emit_str (name : String) (op : Nat) (t : String)
    (s s2 : GenState) (h : emitS name [.strA t] s = .ok s2) (hInv : Inv s)
    (hop : opcodeOfName name = some op) (hops : op ∈ opndStr)
    (hnj : op ∉ jumpOps) : Inv s2 := by
  apply Inv_emit_nonjump name _ s s2 h hInv
  intro op2 hop2
  have he : op2 = op := Option.some.inj (hop2.symm.trans hop)
  subst he
  exact ⟨by simpa [encodeArg] using scan_emit_str op2 t hops, hnj⟩

/-- Emitting a non-jump integer-operand instruction preserves the
invariant. -/
theorem Inv_emit_int_nonjump (name : String) (op : Nat) (i : Int)
    (s s2 : GenState) (h : emitS name [.intA i] s = .ok s2) (hInv : Inv s)
    (hop : opcodeOfName name = some op) (hops : op ∈ opnd8)
    (hnj : op ∉ jumpOps) : Inv s2 := by
  apply Inv_emit_nonjump name _ s s2 h hInv
  intro op2 hop2
  have he : op2 = op := Option.some.inj (hop2.symm.trans hop)
  subst he
  exact ⟨by simpa [encodeArg] using
    scan_emit8 op2 (encodeInt i) hops (encodeInt_length i), hnj⟩

/-- Emitting a float-operand instruction preserves the invariant. -/
theorem Inv_emit_float (name : String) (op : Nat) (q : Rat)
    (s s2 : GenState) (h : emitS name [.floatA q] s = .ok s2) (hInv : Inv s)
    (hop : opcodeOfName name = some op) (hops : op ∈ opnd8)
    (hnj : op ∉ jumpOps) : Inv s2 := by
  apply Inv_emit_nonjump name _ s s2 h hInv
  intro op2 hop2
  have he : op2 = op := Option.some.inj (hop2.symm.trans hop)
  subst he
  exact ⟨by simpa [encodeArg] using
    scan_emit8 op2 (floatBytes q) hops (floatBytes_length q), hnj⟩

/-- Appending one 8-byte-operand instruction whose operand is a valid
target preserves the invariant. -/
theorem Inv_extend_jump (s s2 : GenState) (op t : Nat)
    (hInv : Inv s)
    (hbc : s2.bytecode = s.bytecode ++ (op :: be8 (t % 2 ^ 64)))
    (hfa : s2.functionAddresses = s.functionAddresses)
    (hop8 : op ∈ opnd8)
    (htgt : ∀ L, scanFrom s.bytecode 0 = some L →
      t ∈ L ∨ t = s.bytecode.length) :
    Inv s2 := by
  obtain ⟨L, hL, hAddr, hJmp⟩ := hInv
  have hδscan : scanFrom (op :: be8 (t % 2 ^ 64)) 0 = some [0] :=
    scan_emit8 op _ hop8 (be8_length _)
  have hL2 : scanFrom s2.bytecode 0 = some (L ++ [s.bytecode.length]) := by
    rw [hbc]
    have := scanFrom_append s.bytecode _ 0 L [0] hL hδscan
    simpa using this
  refine ⟨L ++ [s.bytecode.length], hL2, ?_, ?_⟩
  · intro pr hpr
    rw [hfa] at hpr
    rcases hAddr pr hpr with h | h
    · exact Or.inl (List.mem_append_left _ h)
    · exact Or.inl (List.mem_append_right _ (by simp [h]))
  · intro i hi b hb hbj
    rcases List.mem_append.mp hi with hiL | hiR
    · have hbounds := scan_mem_bounds s.bytecode 0 L hL i hiL
      have hbold : s.bytecode[i]? = some b := by
        rw [hbc, List.getElem?_append_left hbounds.2] at hb
        exact hb
      have hroom : i + 9 ≤ s.bytecode.length :=
        scan_room s.bytecode 0 L hL i hiL b hbold (jumpOps_sub_opnd8 b hbj)
      obtain ⟨t0, hr, hT⟩ := hJmp i hiL b hbold hbj
      refine ⟨t0, ?_, ?_⟩
      · rw [hbc, readBE8_append_left s.bytecode _ (i + 1) (by omega)]
        exact hr
      · rcases hT with h | h
        · exact Or.inl (List.mem_append_left _ h)
        · exact Or.inl (List.mem_append_right _ (by simp [h]))
    · have hieq : i = s.bytecode.length := by simpa using hiR
      subst hieq
      refine ⟨t, ?_, ?_⟩
      · rw [hbc]
        have e : s.bytecode ++ (op :: be8 (t % 2 ^ 64)) =
            (s.bytecode ++ [op]) ++ (be8 (t % 2 ^ 64) ++ []) := by simp
        rw [e]
        have hlen : (s.bytecode ++ [op]).length = s.bytecode.length + 1 := by
          simp
        rw [← hlen]
        exact readBE8_at_append (s.bytecode ++ [op]) [] (t % 2 ^ 64)
          (Nat.mod_lt _ (by norm_num))
      · rcases htgt L hL with h | h
        · exact Or.inl (List.mem_append_left _ h)
        · exact Or.inl (List.mem_append_right _ (by simp [h]))

/-- Emitting one 8-byte-operand instruction whose natural operand is
a valid target preserves the invariant. -/
theorem Inv_emit_jump (name : String) (op : Nat) (a : Nat)
    (s s2 : GenState) (h : emitS name [.intA (a : Int)] s = .ok s2)
    (hInv : Inv s) (hop : opcodeOfName name = some op) (hops : op ∈ opnd8)
    (htgt : ∀ L, scanFrom s.bytecode 0 = some L →
      a ∈ L ∨ a = s.bytecode.length) :
    Inv s2 := by
  obtain ⟨op2, hop2, hbc, hfa⟩ := emitS_ok h
  have he : op2 = op := Option.some.inj (hop2.symm.trans hop)
  subst he
  refine Inv_extend_jump s s2 op2 a hInv (hbc.trans ?_) hfa hops htgt
  simp [encodeArg, encodeInt_natCast]

/-- A successful operand patch at a decoded 8-byte-operand start with
a valid target preserves the invariant. -/
theorem Inv_patchQ (s s2 : GenState) (pos v : Nat)
    (hInv : Inv s) (h : patchQ s pos v = .ok s2)
    (b : Nat) (hb : s.bytecode[pos]? = some b) (h8 : b ∈ opnd8)
    (hpos : ∀ L, scanFrom s.bytecode 0 = some L → pos ∈ L)
    (hv : ∀ L, scanFrom s.bytecode 0 = some L →
      v ∈ L ∨ v = s.bytecode.length) :
    Inv s2 := by
  obtain ⟨hvlt, hbc, hfa⟩ := patchQ_ok h
  obtain ⟨L, hL, hAddr, hJmp⟩ := hInv
  have hpmem := hpos L hL
  have hroom : pos + 9 ≤ s.bytecode.length :=
    scan_room s.bytecode 0 L hL pos hpmem b hb h8
  have hlen : s2.bytecode.length = s.bytecode.length := by
    rw [hbc]
    exact patch8_length s.bytecode pos v hroom
  have hscan2 : scanFrom s2.bytecode 0 = some L := by
    rw [hbc]
    exact scanFrom_patch s.bytecode v pos L b hL hpmem hb h8
  have hchain := scan_chain s.bytecode 0 L hL
  refine ⟨L, hscan2, ?_, ?_⟩
  · intro pr hpr
    rw [hfa] at hpr
    rcases hAddr pr hpr with hh | hh
    · exact Or.inl hh
    · exact Or.inr (by rw [hlen]; exact hh)
  · intro i hi b2 hb2 hbj2
    by_cases hip : i = pos
    · subst hip
      refine ⟨v, ?_, ?_⟩
      · have hread : readBE8 (patch8 s.bytecode i v) (i + 1) = v := by
          have e2 : patch8 s.bytecode i v =
              s.bytecode.take (i + 1) ++ (be8 v ++ s.bytecode.drop (i + 9)) := by
            unfold patch8
            simp [List.append_assoc]
          rw [e2]
          obtain ⟨bc0, hbc0len, hbc0⟩ : ∃ bc0 : List Nat,
              bc0.length = i + 1 ∧ s.bytecode.take (i + 1) = bc0 :=
            ⟨_, by simp [List.length_take]; omega, rfl⟩
          rw [hbc0, ← hbc0len]
          exact readBE8_at_append bc0 _ v hvlt
        rw [hbc, hread]
        exact (Nat.mod_eq_of_lt hvlt).symm
      · rcases hv L hL with hh | hh
        · exact Or.inl hh
        · exact Or.inr (by rw [hlen]; exact hh)
    · have hside : i ≤ pos ∨ pos + 9 ≤ i := by
        rcases Nat.lt_or_ge i pos with hlt | hge
        · exact Or.inl (by omega)
        · have hplt : pos < i := by omega
          have := hchain pos hpmem i hi hplt 8
            (operandLen_opnd8 s.bytecode pos b hb h8)
          omega
      have hbyte : s.bytecode[i]? = some b2 := by
        rcases hside with hh | hh
        · rw [hbc, patch8_getElem_le s.bytecode pos v i hroom hh] at hb2
          exact hb2
        · rw [hbc, patch8_getElem_ge s.bytecode pos v i hroom hh] at hb2
          exact hb2
      obtain ⟨t0, hr, hT⟩ := hJmp i hi b2 hbyte hbj2
      refine ⟨t0, ?_, ?_⟩
      · rw [hbc]
        rw [readBE8_congr (patch8 s.bytecode pos v) s.bytecode (i + 1) ?_]
        · exact hr
        · intro j hj1 hj2
          rcases hside with hh | hh
          · have hi9 : i + 9 ≤ pos := by
              have hilt : i < pos := by omega
              have := hchain i hi pos hpmem hilt 8
                (operandLen_opnd8 s.bytecode i b2 hbyte
                  (jumpOps_sub_opnd8 b2 hbj2))
              omega
            exact patch8_getElem_le s.bytecode pos v j hroom (by omega)
          · exact patch8_getElem_ge s.bytecode pos v j hroom (by omega)
      · rcases hT with hh | hh
        · exact Or.inl hh
        · exact Or.inr (by rw [hlen]; exact hh)

/-- Recording a function address at the current end of the stream
preserves the invariant. -/
theorem Inv_addEntry (s : GenState) (n : String) (hInv : Inv s) :
    Inv { s with functionAddresses :=
      (n, s.bytecode.length) :: s.functionAddresses } := by
  obtain ⟨L, hL, hAddr, hJmp⟩ := hInv
  refine ⟨L, hL, ?_, hJmp⟩
  intro pr hpr
  rcases List.mem_cons.mp hpr with rfl | hm
  · exact Or.inr rfl
  · exact hAddr pr hm

/-- The parameter STORE loop preserves the invariant. -/
theorem Inv_emitStores :
    ∀ (ps : List String) (s s2 : GenState), emitStores ps s = .ok s2 →
      Inv s → Inv s2 := by
  intro ps
  induction ps with
  | nil =>
    intro s s2 h hInv
    simp only [emitStores, Except.ok.injEq] at h
    rw [← h]
    exact hInv
  | cons p rest ih =>
    intro s s2 h hInv
    simp only [emitStores] at h
    rw [exceptBind_ok] at h
    obtain ⟨s1, h1, h2⟩ := h
    exact ih s1 s2 h2
      (Inv_emit_str "STORE" 8 p s s1 h1 hInv rfl (by decide) (by decide))

/-- The constant-range LOAD_INT loop preserves the invariant. -/
theorem Inv_emitLoadInts :
    ∀ (vals : List Int) (s s2 : GenState), emitLoadInts vals s = .ok s2 →
      Inv s → Inv s2 := by
  intro vals
  induction vals with
  | nil =>
    intro s s2 h hInv
    simp only [emitLoadInts, Except.ok.injEq] at h
    rw [← h]
    exact hInv
  | cons v rest ih =>
    intro s s2 h hInv
    simp only [emitLoadInts] at h
    rw [exceptBind_ok] at h
    obtain ⟨s1, h1, h2⟩ := h
    exact ih s1 s2 h2
      (Inv_emit_int_nonjump "LOAD_INT" 3 v s s1 h1 hInv rfl (by decide)
        (by decide))

/-- Visiting a constant preserves the invariant. -/
theorem Inv_visitConstant (v : PyVal) (s s2 : GenState)
    (h : visitConstant v s = .ok s2) (hInv : Inv s) : Inv s2 := by
  cases v with
  | str t =>
    simp only [visitConstant] at h
    exact Inv_emit_str "LOAD_CONST" 2 t s s2 h hInv rfl (by decide) (by decide)
  | int i =>
    simp only [visitConstant] at h
    exact Inv_emit_int_nonjump "LOAD_INT" 3 i s s2 h hInv rfl (by decide)
      (by decide)
  | float q =>
    simp only [visitConstant] at h
    exact Inv_emit_float "LOAD_FLOAT" 28 q s s2 h hInv rfl (by decide)
      (by decide)
  | bool b =>
    simp only [visitConstant] at h
    exact Inv_emit_int_nonjump "LOAD_INT" 3 _ s s2 h hInv rfl (by decide)
      (by decide)
  | null =>
    simp only [visitConstant] at h
    exact Inv_emit0 "LOAD_NULL" 38 s s2 h hInv rfl (by decide)

/-- Extension lemma for the function loop. -/
theorem genFunctions_ext {l : List AST} {s s2 : GenState}
    (h : genFunctions l s = .ok s2) : ∃ δ, s2.bytecode = s.bytecode ++ δ :=
  (visit_ext_bounded (sizeOf l)).2.2.2.1 l le_rfl s s2 h

/-- Offset 0 is always a valid target. -/
theorem zero_target (bc : List Nat) (L : List Nat)
    (hL : scanFrom bc 0 = some L) : 0 ∈ L ∨ 0 = bc.length := by
  by_cases hbe : bc = []
  · subst hbe
    right
    rfl
  · obtain ⟨L2, rfl⟩ := scan_zero_cons bc L hbe hL
    exact Or.inl (List.mem_cons_self 0 L2)

/-- A decoded start of a stream stays a start after appending. -/
theorem start_mono (bc δ : List Nat) (i : Nat) (L L2 : List Nat)
    (hL : scanFrom bc 0 = some L) (hL2 : scanFrom (bc ++ δ) 0 = some L2)
    (hi : i ∈ L) : i ∈ L2 := by
  obtain ⟨Lδ, hδ, rfl⟩ := scan_append_inv bc δ 0 L L2 hL hL2
  exact List.mem_append_left _ hi

/-- Every successful visit preserves the generator invariant: the
byte stream keeps decoding completely, and every jump or call operand
as well as every recorded function address keeps denoting an
instruction start or the end of the stream. -/
theorem visit_inv_bounded :
    ∀ K : Nat,
      (∀ n : AST, sizeOf n ≤ K → ∀ s s2, visitNode n s = .ok s2 →
        Inv s → Inv s2) ∧
      (∀ args : List AST, sizeOf args ≤ K → ∀ f s s2,
        visitCall f args s = .ok s2 → Inv s → Inv s2) ∧
      (∀ l : List AST, sizeOf l ≤ K → ∀ s s2, visitList l s = .ok s2 →
        Inv s → Inv s2) ∧
      (∀ l : List AST, sizeOf l ≤ K → ∀ s s2, genFunctions l s = .ok s2 →
        Inv s → Inv s2) ∧
      (∀ l : List AST, sizeOf l ≤ K → ∀ s s2, visitMainStmts l s = .ok s2 →
        Inv s → Inv s2) := by
  intro K
  induction K with
  | zero =>
    refine ⟨?_, ?_, ?_, ?_, ?_⟩
    · intro n hn
      exfalso
      cases n <;> simp at hn
    · intro args ha
      exfalso
      cases args <;> simp at ha
    · intro l hl
      exfalso
      cases l <;> simp at hl
    · intro l hl
      exfalso
      cases l <;> simp at hl
    · intro l hl
      exfalso
      cases l <;> simp at hl
  | succ K ih =>
    obtain ⟨ihA, ihC, ihL, ihG, ihM⟩ := ih
    have stepL : ∀ l : List AST, sizeOf l ≤ K + 1 → ∀ s s2,
        visitList l s = .ok s2 → Inv s → Inv s2 := by
      intro l hl s s2 h hInv
      cases l with
      | nil =>
        rw [visitList_nil] at h
        rw [← Except.ok.injEq _ s2 |>.mp h]
        exact hInv
      | cons a rest =>
        have ha : sizeOf a ≤ K := by simp at hl; omega
        have hrest : sizeOf rest ≤ K := by simp at hl; omega
        rw [visitList_cons, exceptBind_ok] at h
        obtain ⟨s1, h1, h2⟩ := h
        exact ihL rest hrest s1 s2 h2 (ihA a ha s s1 h1 hInv)
    have stepC : ∀ args : List AST, sizeOf args ≤ K + 1 → ∀ f s s2,
        visitCall f args s = .ok s2 → Inv s → Inv s2 := by
      intro args hargs f s s2 h hInv
      rw [visitCall.eq_def] at h
      split at h
      · -- print
        split at h
        · rw [exceptBind_ok] at h
          obtain ⟨s1, h1, h2⟩ := h
          exact Inv_emit0 "PRINT" 1 s1 s2 h2
            (Inv_emit_str "LOAD_CONST" 2 "" s s1 h1 hInv rfl (by decide)
              (by decide)) rfl (by decide)
        · rw [exceptBind_ok] at h
          obtain ⟨s1, h1, h2⟩ := h
          exact Inv_emit0 "PRINT" 1 s1 s2 h2
            (stepL args hargs s s1 h1 hInv) rfl (by decide)
      · split at h
        · -- input
          exact Inv_emit0 "STDIN" 7 s s2 h hInv rfl (by decide)
        · split at h
          · -- len
            split at h
            · rw [← Except.ok.injEq _ s2 |>.mp h]
              exact hInv
            · rename_i a tail
              have ha : sizeOf a ≤ K := by simp at hargs; omega
              rw [exceptBind_ok] at h
              obtain ⟨s1, h1, h2⟩ := h
              exact Inv_emit0 "ARRAY_LEN" 34 s1 s2 h2
                (ihA a ha s s1 h1 hInv) rfl (by decide)
          · split at h
            · -- int
              split at h
              · rw [← Except.ok.injEq _ s2 |>.mp h]
                exact hInv
              · rename_i a tail
                have ha : sizeOf a ≤ K := by simp at hargs; omega
                rw [exceptBind_ok] at h
                obtain ⟨s1, h1, h2⟩ := h
                exact Inv_emit0 "CAST_INT" 29 s1 s2 h2
                  (ihA a ha s s1 h1 hInv) rfl (by decide)
            · split at h
              · -- float
                split at h
                · rw [← Except.ok.injEq _ s2 |>.mp h]
                  exact hInv
                · rename_i a tail
                  have ha : sizeOf a ≤ K := by simp at hargs; omega
                  rw [exceptBind_ok] at h
                  obtain ⟨s1, h1, h2⟩ := h
                  exact Inv_emit0 "CAST_FLOAT" 30 s1 s2 h2
                    (ihA a ha s s1 h1 hInv) rfl (by decide)
              · split at h
                · -- range
                  split at h
                  · rw [exceptBind_ok] at h
                    obtain ⟨vals, hv, h⟩ := h
                    rw [exceptBind_ok] at h
                    obtain ⟨s1, h1, h2⟩ := h
                    exact Inv_emit_int_nonjump "BUILD_LIST" 41 _ s1 s2 h2
                      (Inv_emitLoadInts vals s s1 h1 hInv) rfl (by decide)
                      (by decide)
                  · rw [← Except.ok.injEq _ s2 |>.mp h]
                    exact hInv
                · -- user function or unknown
                  split at h
                  · rename_i addr haddr
                    rw [exceptBind_ok] at h
                    obtain ⟨s1, h1, h2⟩ := h
                    have hInv1 : Inv s1 := stepL args hargs s s1 h1 hInv
                    obtain ⟨δ1, hδ1⟩ := visitList_ext h1
                    refine Inv_emit_jump "CALL" 26 addr s1 s2 h2 hInv1 rfl
                      (by decide) ?_
                    intro L1 hL1
                    obtain ⟨nm, hnm⟩ := lookupFA_mem s.functionAddresses
                      f addr haddr
                    have hInvS := hInv
                    obtain ⟨L0, hL0, hAddr0, _⟩ := hInvS
                    have htgt0 : addr ∈ L0 ∨ addr = s.bytecode.length :=
                      hAddr0 (nm, addr) hnm
                    have hmono := target_mono s.bytecode δ1 addr L0 L1 hL0
                      (by rw [← hδ1]; exact hL1) htgt0
                    rw [← hδ1] at hmono
                    exact hmono
                  · rw [← Except.ok.injEq _ s2 |>.mp h]
                    exact hInv
    have stepM : ∀ l : List AST, sizeOf l ≤ K + 1 → ∀ s s2,
        visitMainStmts l s = .ok s2 → Inv s → Inv s2 := by
      intro l hl s s2 h hInv
      cases l with
      | nil =>
        rw [visitMainStmts_nil] at h
        rw [← Except.ok.injEq _ s2 |>.mp h]
        exact hInv
      | cons a rest =>
        have ha : sizeOf a ≤ K := by simp at hl; omega
        have hrest : sizeOf rest ≤ K := by simp at hl; omega
        rw [visitMainStmts_cons] at h
        by_cases hf : isFunctionDef a = true
        · rw [if_pos hf] at h
          exact ihM rest hrest s s2 h hInv
        · rw [if_neg hf, exceptBind_ok] at h
          obtain ⟨s1, h1, h2⟩ := h
          exact ihM rest hrest s1 s2 h2 (ihA a ha s s1 h1 hInv)
    have stepG : ∀ l : List AST, sizeOf l ≤ K + 1 → ∀ s s2,
        genFunctions l s = .ok s2 → Inv s → Inv s2 := by
      intro l hl s s2 h hInv
      cases l with
      | nil =>
        rw [genFunctions_nil] at h
        rw [← Except.ok.injEq _ s2 |>.mp h]
        exact hInv
      | cons a rest =>
        have hrest : sizeOf rest ≤ K := by simp at hl; omega
        cases hfd : isFunctionDef a with
        | false =>
          rw [genFunctions_cons_other a rest s hfd] at h
          exact ihG rest hrest s s2 h hInv
        | true =>
          cases a with
          | functionDef n as b =>
            have hb : sizeOf b ≤ K := by simp at hl; omega
            rw [genFunctions_cons_functionDef, exceptBind_ok] at h
            obtain ⟨s4, h4, h5⟩ := h
            unfold generateFunction at h4
            rw [exceptBind_ok] at h4
            obtain ⟨s1, h1, h4⟩ := h4
            rw [exceptBind_ok] at h4
            obtain ⟨s2x, h2x, h4⟩ := h4
            rw [exceptBind_ok] at h4
            obtain ⟨s3, h3, h4⟩ := h4
            have hInv0 := Inv_addEntry s n hInv
            have hInv1 := Inv_emitStores as.reverse _ s1 h1 hInv0
            have hInv2 := ihL b hb s1 s2x h2x hInv1
            have hInv3 := Inv_emit0 "LOAD_NULL" 38 s2x s3 h3 hInv2 rfl
              (by decide)
            have hInv4 := Inv_emit0 "RET" 27 s3 s4 h4 hInv3 rfl (by decide)
            exact ihG rest hrest s4 s2 h5 hInv4
          | module bb => simp [isFunctionDef] at hfd
          | assignment t v => simp [isFunctionDef] at hfd
          | binaryOp ll op rr => simp [isFunctionDef] at hfd
          | unaryOp op o => simp [isFunctionDef] at hfd
          | compare ll ops cs => simp [isFunctionDef] at hfd
          | boolOp op vs => simp [isFunctionDef] at hfd
          | call f as2 => simp [isFunctionDef] at hfd
          | name i => simp [isFunctionDef] at hfd
          | constant v => simp [isFunctionDef] at hfd
          | ifStmt t b o => simp [isFunctionDef] at hfd
          | forStmt t i b => simp [isFunctionDef] at hfd
          | whileStmt t b => simp [isFunctionDef] at hfd
          | listNode e => simp [isFunctionDef] at hfd
          | expr v => simp [isFunctionDef] at hfd
          | ret v => simp [isFunctionDef] at hfd
    refine ⟨?_, stepC, stepL, stepG, stepM⟩
    intro n hn s s2 h hInv
    cases n with
    | module body =>
      have hb : sizeOf body ≤ K := by simp at hn; omega
      rw [visitNode_module, exceptBind_ok] at h
      obtain ⟨s1, h1, h⟩ := h
      rw [exceptBind_ok] at h
      obtain ⟨s2x, h2x, h⟩ := h
      rw [exceptBind_ok] at h
      obtain ⟨s3, h3, h4⟩ := h
      have hInv1 : Inv s1 :=
        Inv_emit_jump "JMP" 23 0 s s1 h1 hInv rfl (by decide)
          (fun L hL => zero_target s.bytecode L hL)
      have hInv2 : Inv s2x := ihG body hb s1 s2x h2x hInv1
      obtain ⟨op, hop, hbc1, _⟩ := emitS_ok h1
      have hope : op = 23 :=
        (Option.some.inj ((show opcodeOfName "JMP" = some 23 from
          rfl).symm.trans hop)).symm
      subst hope
      have hlt : s.bytecode.length < s1.bytecode.length := by
        rw [hbc1]
        simp only [List.length_append, List.length_cons]
        omega
      have hb23 : s1.bytecode[s.bytecode.length]? = some 23 := by
        rw [hbc1, List.getElem?_append_right (le_refl _)]
        simp
      obtain ⟨δ2, hδ2⟩ := genFunctions_ext h2x
      have hb23x : s2x.bytecode[s.bytecode.length]? = some 23 := by
        rw [hδ2, List.getElem?_append_left hlt]
        exact hb23
      have hmem1 : ∀ L1, scanFrom s1.bytecode 0 = some L1 →
          s.bytecode.length ∈ L1 := by
        intro L1 hL1
        have hInvS := hInv
        obtain ⟨L0, hL0, _, _⟩ := hInvS
        rw [hbc1] at hL1
        obtain ⟨Lδ, hδ, rfl⟩ := scan_append_inv s.bytecode _ 0 L0 L1 hL0 hL1
        obtain ⟨Lδ2, rfl⟩ := scan_zero_cons _ Lδ (by simp) hδ
        refine List.mem_append_right _ ?_
        simp
      have hInv3 : Inv s3 := by
        have hInv2c := hInv2
        obtain ⟨L2, hL2, _, _⟩ := hInv2c
        refine Inv_patchQ s2x s3 s.bytecode.length s2x.bytecode.length hInv2
          h3 23 hb23x (by decide) ?_ (fun L hL => Or.inr rfl)
        intro L hL
        have hInv1c := hInv1
        obtain ⟨L1, hL1, _, _⟩ := hInv1c
        refine start_mono s1.bytecode δ2 _ L1 L hL1 ?_ (hmem1 L1 hL1)
        rw [← hδ2]
        exact hL
      exact stepM body (by omega) s3 s2 h4 hInv3
    | assignment t v =>
      have hv : sizeOf v ≤ K := by simp at hn; omega
      rw [visitNode_assignment, exceptBind_ok] at h
      obtain ⟨s1, h1, h2⟩ := h
      exact Inv_emit_str "STORE" 8 t s1 s2 h2 (ihA v hv s s1 h1 hInv) rfl
        (by decide) (by decide)
    | expr v =>
      have hv : sizeOf v ≤ K := by simp at hn; omega
      rw [visitNode_expr, exceptBind_ok] at h
      obtain ⟨s1, h1, h2⟩ := h
      have hInv1 := ihA v hv s s1 h1 hInv
      by_cases hc : isCall v = true
      · rw [if_pos hc] at h2
        rw [← Except.ok.injEq _ s2 |>.mp h2]
        exact hInv1
      · rw [if_neg hc] at h2
        exact Inv_emit0 "POP" 37 s1 s2 h2 hInv1 rfl (by decide)
    | call f args =>
      have hargs : sizeOf args ≤ K := by simp at hn; omega
      rw [visitNode_call] at h
      exact stepC args (by omega) f s s2 h hInv
    | name i =>
      rw [visitNode_name] at h
      exact Inv_emit_str "LOAD_VAR" 6 i s s2 h hInv rfl (by decide) (by decide)
    | constant v =>
      rw [visitNode_constant] at h
      exact Inv_visitConstant v s s2 h hInv
    | binaryOp l op r => rw [visitNode_binaryOp] at h; exact absurd h (by simp)
    | unaryOp op o => rw [visitNode_unaryOp] at h; exact absurd h (by simp)
    | compare l ops cs => rw [visitNode_compare] at h; exact absurd h (by simp)
    | boolOp op vs => rw [visitNode_boolOp] at h; exact absurd h (by simp)
    | ifStmt t b o => rw [visitNode_ifStmt] at h; exact absurd h (by simp)
    | forStmt t i b => rw [visitNode_forStmt] at h; exact absurd h (by simp)
    | whileStmt t b => rw [visitNode_whileStmt] at h; exact absurd h (by simp)
    | listNode elts => rw [visitNode_listNode] at h; exact absurd h (by simp)
    | ret v => rw [visitNode_ret] at h; exact absurd h (by simp)
    | functionDef nm aa bb =>
      rw [visitNode_functionDef] at h
      exact absurd h (by simp)

/-- The empty generator state satisfies the invariant. -/
theorem Inv_init : Inv ⟨[], []⟩ := by
  refine ⟨[], scanFrom_stop [], ?_, ?_⟩
  · intro pr hpr
    simp at hpr
  · intro i hi
    simp at hi

/-- C1 is false as stated: the empty module compiles to the 9-byte
stream JMP 9, whose operand 9 equals len(bytes) and therefore lies
outside the claimed half-open range [0, len(bytes)). -/
theorem c1_counterexample :
    generate (.module []) = .ok [23, 0, 0, 0, 0, 0, 0, 0, 9] ∧
    0 ∈ starts [23, 0, 0, 0, 0, 0, 0, 0, 9] ∧
    ([23, 0, 0, 0, 0, 0, 0, 0, 9] : List Nat)[0]? = some 23 ∧
    23 ∈ jumpOps ∧
    ¬ readBE8 [23, 0, 0, 0, 0, 0, 0, 0, 9] 1 <
      ([23, 0, 0, 0, 0, 0, 0, 0, 9] : List Nat).length := by
  refine ⟨?_, ?_, by decide, by decide, by decide⟩
  · simp +decide [generate, visitNode, emitS, opcodeOfName, encodeArg,
      encodeInt, be8, genFunctions, visitMainStmts, patchQ, patch8,
      exceptOk_bind]
  · have h1 : scanFrom [23, 0, 0, 0, 0, 0, 0, 0, 9] 0 = some [0] :=
      scanFrom_single _ 8 (by decide) (by decide)
    rw [starts, h1]
    simp

/-- C1 (amended): for every module accepted by the generator whose
output is shorter than 2^64 bytes, every jump or call operand in the
decoded stream is an absolute offset in the closed range
[0, len(bytes)] that is either the start of some instruction or
exactly len(bytes) (the latter occurs for the initial JMP of a module
with no main statements). -/
theorem c1_jump_validity_amended (m : AST) (bc : List Nat)
    (hgen : generate m = .ok bc) (hlen : bc.length < 2 ^ 64) :
    ∀ i ∈ starts bc, ∀ b, bc[i]? = some b → b ∈ jumpOps →
      readBE8 bc (i + 1) ≤ bc.length ∧
        (readBE8 bc (i + 1) ∈ starts bc ∨
          readBE8 bc (i + 1) = bc.length) := by
  unfold generate at hgen
  split at hgen
  · rename_i sf hv
    split at hgen
    · have hbc : sf.bytecode = bc := (Except.ok.injEq _ _).mp hgen
      have hInv : Inv sf :=
        (visit_inv_bounded (sizeOf m)).1 m le_rfl ⟨[], []⟩ sf hv Inv_init
      obtain ⟨L, hL, _, hJmp⟩ := hInv
      have hst : starts bc = L := by
        rw [starts, ← hbc, hL]
        rfl
      intro i hi b hbi hbj
      rw [hst] at hi ⊢
      rw [← hbc] at hbi hlen ⊢
      obtain ⟨t, hr, hT⟩ := hJmp i hi b hbi hbj
      have htle : t ≤ sf.bytecode.length := by
        rcases hT with hh | hh
        · exact Nat.le_of_lt (scan_mem_bounds sf.bytecode 0 L hL t hh).2
        · omega
      have htlt : t < 2 ^ 64 := lt_of_le_of_lt htle hlen
      rw [Nat.mod_eq_of_lt htlt] at hr
      rw [hr]
      exact ⟨htle, hT⟩
    · exact absurd hgen (by simp)
  · exact absurd hgen (by simp)

/-- Witness for the amended C1 theorem: the empty module, whose one
JMP instruction carries the operand 9 = len(bytes). -/
theorem c1_witness :
    readBE8 [23, 0, 0, 0, 0, 0, 0, 0, 9] 1 ≤
        ([23, 0, 0, 0, 0, 0, 0, 0, 9] : List Nat).length ∧
      (readBE8 [23, 0, 0, 0, 0, 0, 0, 0, 9] 1 ∈
          starts [23, 0, 0, 0, 0, 0, 0, 0, 9] ∨
        readBE8 [23, 0, 0, 0, 0, 0, 0, 0, 9] 1 =
          ([23, 0, 0, 0, 0, 0, 0, 0, 9] : List Nat).length) :=
  c1_jump_validity_amended (.module []) [23, 0, 0, 0, 0, 0, 0, 0, 9]
    (by simp +decide [generate, visitNode, emitS, opcodeOfName, encodeArg,
      encodeInt, be8, genFunctions, visitMainStmts, patchQ, patch8,
      exceptOk_bind])
    (by decide) 0
    (by rw [starts, scanFrom_single _ 8 (by decide) (by decide)]
        simp)
    23 (by decide) (by decide)

end Carbn
